import Mathlib

/-!
Verification of the Catcity Music Asset Manager catalog core.

This file embeds the catalog data model and the reconciliation, key
generation, normalization, cluster merge and persistence-pruning logic of
`app/catalog.py` / `app/main.py` / `app/models.py` as executable Lean
definitions, and proves (or refutes) the specification claims about them.

Modelling conventions:
- Python `uuid4` identifiers are modelled as natural numbers drawn from a
  monotone fresh-id supply threaded through the operations.
- Python `float` timestamps/durations are modelled as exact rationals; the
  mtime tolerance `1e-6` becomes the rational `1/1000000`.
- Python dicts are modelled as association lists with dict semantics
  (insertion order preserved, assignment replaces the first matching key,
  otherwise appends).
- The filesystem is modelled by the list of discovered audio records
  (the scanner's output) together with a `diskExists : String → Bool`
  predicate used by `_file_exists`.
-/

namespace Catcity

/-! ## Decimal printing and parsing of naturals -/

def digitChar (n : Nat) : Char :=
  if n = 0 then '0' else if n = 1 then '1' else if n = 2 then '2'
  else if n = 3 then '3' else if n = 4 then '4' else if n = 5 then '5'
  else if n = 6 then '6' else if n = 7 then '7' else if n = 8 then '8'
  else '9'

def printNatAux : Nat → Nat → List Char
  | 0, _ => []
  | fuel+1, n => if n < 10 then [digitChar n] else printNatAux fuel (n / 10) ++ [digitChar (n % 10)]

/-- Decimal representation of a natural, as Python `str(n)` produces. -/
def printNat (n : Nat) : List Char := printNatAux (n + 1) n

def natStr (n : Nat) : String := String.mk (printNat n)

def charVal (c : Char) : Nat := c.toNat - 48

/-- Decimal parsing of a digit list, as Python `int(s)` on an all-digit string. -/
def parseNat (cs : List Char) : Nat := cs.foldl (fun a c => a * 10 + charVal c) 0

theorem digitChar_isDigit (n : Nat) : (digitChar n).isDigit = true := by
  unfold digitChar
  repeat' split
  all_goals decide

theorem charVal_digitChar (n : Nat) (h : n < 10) : charVal (digitChar n) = n := by
  interval_cases n <;> decide

theorem parseNat_append_one (xs : List Char) (c : Char) :
    parseNat (xs ++ [c]) = 10 * parseNat xs + charVal c := by
  simp [parseNat, List.foldl_append, Nat.mul_comm]

theorem printNatAux_spec : ∀ fuel n, n < fuel →
    printNatAux fuel n ≠ [] ∧ (printNatAux fuel n).all Char.isDigit = true ∧
      parseNat (printNatAux fuel n) = n := by
  intro fuel
  induction fuel with
  | zero => intro n h; omega
  | succ f ih =>
    intro n h
    by_cases h10 : n < 10
    · refine ⟨by simp [printNatAux, h10], ?_, ?_⟩
      · simp [printNatAux, h10, List.all_cons, digitChar_isDigit]
      · simp [printNatAux, h10, parseNat, charVal_digitChar n h10]
    · have hdiv : n / 10 < f := by
        have h1 : n / 10 < n := Nat.div_lt_self (by omega) (by omega)
        omega
      obtain ⟨hne, hdig, hval⟩ := ih (n / 10) hdiv
      refine ⟨?_, ?_, ?_⟩
      · simp [printNatAux, h10]
      · simp only [printNatAux, if_neg h10, List.all_append, List.all_cons]
        simp [hdig, digitChar_isDigit]
      · simp only [printNatAux, if_neg h10]
        rw [parseNat_append_one, hval, charVal_digitChar (n % 10) (Nat.mod_lt _ (by omega))]
        omega

theorem printNat_ne_nil (n : Nat) : printNat n ≠ [] :=
  (printNatAux_spec (n+1) n (Nat.lt_succ_self n)).1

theorem printNat_all_digits (n : Nat) : (printNat n).all Char.isDigit = true :=
  (printNatAux_spec (n+1) n (Nat.lt_succ_self n)).2.1

theorem parseNat_printNat (n : Nat) : parseNat (printNat n) = n :=
  (printNatAux_spec (n+1) n (Nat.lt_succ_self n)).2.2

theorem printNat_injective {m n : Nat} (h : printNat m = printNat n) : m = n := by
  have := parseNat_printNat m
  rw [h, parseNat_printNat] at this
  omega

theorem natStr_injective {m n : Nat} (h : natStr m = natStr n) : m = n := by
  apply printNat_injective
  have := congrArg String.data h
  simpa [natStr] using this

/-- Python `f"{n:03d}"`: decimal digits zero-padded on the left to width 3. -/
def pad3 (n : Nat) : List Char :=
  let d := printNat n
  List.replicate (3 - d.length) '0' ++ d

theorem parseNat_replicate_zero_append (k : Nat) (d : List Char) :
    parseNat (List.replicate k '0' ++ d) = parseNat d := by
  induction k with
  | zero => simp
  | succ m ih =>
    have : List.replicate (m+1) '0' ++ d = '0' :: (List.replicate m '0' ++ d) := by
      simp [List.replicate_succ]
    rw [this]
    simpa [parseNat, charVal] using ih

theorem pad3_ne_nil (n : Nat) : pad3 n ≠ [] := by
  simp only [pad3]
  intro h
  exact printNat_ne_nil n (by simpa using (List.append_eq_nil.mp h).2)

theorem pad3_all_digits (n : Nat) : (pad3 n).all Char.isDigit = true := by
  simp only [pad3, List.all_append, Bool.and_eq_true]
  constructor
  · simp only [List.all_eq_true]
    intro c hc
    have : c = '0' := List.eq_of_mem_replicate hc
    simp [this]
  · exact printNat_all_digits n

theorem parseNat_pad3 (n : Nat) : parseNat (pad3 n) = n := by
  simp only [pad3]
  rw [parseNat_replicate_zero_append, parseNat_printNat]

/-! ## Smallest free serial number (the `while sn in used: sn += 1` loop) -/

def firstFreeAux (used : List Nat) : Nat → Nat → Nat
  | 0, sn => sn
  | fuel+1, sn => if sn ∈ used then firstFreeAux used fuel (sn + 1) else sn

/-- Smallest positive integer not in `used`. -/
def firstFree (used : List Nat) : Nat := firstFreeAux used (used.length + 1) 1

theorem length_filter_mono {p q : Nat → Bool} (l : List Nat)
    (h : ∀ x, p x = true → q x = true) :
    (l.filter p).length ≤ (l.filter q).length := by
  induction l with
  | nil => simp
  | cons a as ih =>
    by_cases hp : p a = true
    · simp [List.filter_cons, hp, h a hp, Nat.succ_le_succ ih]
    · simp only [List.filter_cons, hp, Bool.false_eq_true, if_false]
      cases hq : q a <;> simp [Nat.le_succ_of_le ih, ih]

theorem length_filter_succ_lt {l : List Nat} {a : Nat} (h : a ∈ l) :
    (l.filter (fun x => a + 1 ≤ x)).length < (l.filter (fun x => a ≤ x)).length := by
  induction l with
  | nil => simp at h
  | cons b bs ih =>
    rcases List.mem_cons.mp h with heq | hmem
    · subst heq
      simp only [List.filter_cons, decide_eq_true_eq]
      rw [if_neg (by omega), if_pos (Nat.le_refl a), List.length_cons]
      exact Nat.lt_succ_of_le (length_filter_mono bs (fun x hx => by
        simp only [decide_eq_true_eq] at hx ⊢; omega))
    · have hlt := ih hmem
      simp only [List.filter_cons, decide_eq_true_eq]
      by_cases hb : a + 1 ≤ b
      · rw [if_pos hb, if_pos (by omega), List.length_cons, List.length_cons]
        omega
      · rw [if_neg hb]
        by_cases hb2 : a ≤ b
        · rw [if_pos hb2, List.length_cons]
          omega
        · rw [if_neg hb2]
          exact hlt

theorem firstFreeAux_spec (used : List Nat) :
    ∀ fuel sn, (used.filter (fun x => sn ≤ x)).length < fuel →
      firstFreeAux used fuel sn ∉ used ∧ sn ≤ firstFreeAux used fuel sn ∧
        (∀ m, sn ≤ m → m < firstFreeAux used fuel sn → m ∈ used) := by
  intro fuel
  induction fuel with
  | zero => intro sn h; omega
  | succ f ih =>
    intro sn h
    by_cases hmem : sn ∈ used
    · have hlt := length_filter_succ_lt (l := used) (a := sn) hmem
      have hrec := ih (sn + 1) (by omega)
      refine ⟨?_, ?_, ?_⟩
      · simp only [firstFreeAux, if_pos hmem]
        exact hrec.1
      · simp only [firstFreeAux, if_pos hmem]; omega
      · intro m hm1 hm2
        simp only [firstFreeAux, if_pos hmem] at hm2
        rcases Nat.eq_or_lt_of_le hm1 with rfl | hlt2
        · exact hmem
        · exact hrec.2.2 m hlt2 hm2
    · refine ⟨?_, ?_, ?_⟩
      · simp [firstFreeAux, hmem]
      · simp [firstFreeAux, hmem]
      · intro m hm1 hm2
        simp only [firstFreeAux, if_neg hmem] at hm2
        omega

theorem firstFree_spec (used : List Nat) :
    firstFree used ∉ used ∧ 1 ≤ firstFree used ∧
      (∀ m, 1 ≤ m → m < firstFree used → m ∈ used) := by
  have hle : (used.filter (fun x => 1 ≤ x)).length ≤ used.length := List.length_filter_le _ _
  exact firstFreeAux_spec used (used.length + 1) 1 (by omega)

/-! ## String helpers (ASCII models of the Python string operations) -/

def isPyWs (c : Char) : Bool :=
  c = ' ' || c = '\t' || c = '\n' || c = '\x0d' || c = '\x0b' || c = '\x0c'

/-- Python `str.strip()` (whitespace strip on both ends). -/
def strTrim (s : String) : String :=
  String.mk (((s.data.dropWhile isPyWs).reverse.dropWhile isPyWs).reverse)

/-- Python `str.lower()` (ASCII model). -/
def strLower (s : String) : String := String.mk (s.data.map Char.toLower)

def listPre : List Char → List Char → Bool
  | [], _ => true
  | _ :: _, [] => false
  | a :: as, b :: bs => a = b && listPre as bs

theorem listPre_append_self (p t : List Char) : listPre p (p ++ t) = true := by
  induction p with
  | nil => simp [listPre]
  | cons a as ih => simp [listPre, ih]

/-- Replace each maximal run of non-`good` characters by one `rep` character
(the model of `re.sub(bad_class_plus, rep, s)`); `prevBad` records whether the
previous character was part of a bad run. -/
def replaceRuns (good : Char → Bool) (rep : Char) : Bool → List Char → List Char
  | _, [] => []
  | prevBad, c :: rest =>
    if good c then c :: replaceRuns good rep false rest
    else if prevBad then replaceRuns good rep true rest
    else rep :: replaceRuns good rep true rest

def dropEnds (bad : Char → Bool) (cs : List Char) : List Char :=
  ((cs.dropWhile bad).reverse.dropWhile bad).reverse

def isSlugChar (c : Char) : Bool := ('a' ≤ c && c ≤ 'z') || ('0' ≤ c && c ≤ '9')

/-- `catalog._slugify_part`: lowercase, strip, collapse non-alphanumeric runs to
single hyphens, trim hyphens, defaulting to `"unk"` when empty. -/
def _slugify_part (s : String) : String :=
  let cs := (strTrim (strLower s)).data
  let core := dropEnds (fun c => c = '-') (replaceRuns isSlugChar '-' false cs)
  if core = [] then "unk" else String.mk core

def vkPre (mood context instrument style : String) : String :=
  _slugify_part mood ++ "_" ++ _slugify_part context ++ "_" ++
    _slugify_part instrument ++ "_" ++ _slugify_part style ++ "_"

/-- The serial numbers already used under `pfx`: integer values of all-digit
tails of existing keys that start with `pfx`. -/
def serialsUnder (pfx : String) (existing : List String) : List Nat :=
  existing.filterMap (fun k =>
    if listPre pfx.data k.data then
      let tail := k.data.drop pfx.data.length
      if tail ≠ [] ∧ tail.all Char.isDigit then some (parseNat tail) else none
    else none)

/-- `catalog.generate_virtual_key_from_parts`. -/
def generate_virtual_key_from_parts (mood context instrument style : String)
    (existing : List String) : String :=
  let pfx := vkPre mood context instrument style
  let sn := firstFree (serialsUnder pfx existing)
  pfx ++ String.mk (pad3 sn)

theorem string_append_data (a b : String) : (a ++ b).data = a.data ++ b.data := rfl

theorem generate_from_parts_serial_mem {pfx : String} {existing : List String} {n : Nat}
    (h : pfx ++ String.mk (pad3 n) ∈ existing) : n ∈ serialsUnder pfx existing := by
  simp only [serialsUnder, List.mem_filterMap]
  refine ⟨pfx ++ String.mk (pad3 n), h, ?_⟩
  have hdata : (pfx ++ String.mk (pad3 n)).data = pfx.data ++ pad3 n := rfl
  rw [hdata, listPre_append_self]
  simp only [if_true, List.drop_left]
  rw [if_pos ⟨pad3_ne_nil n, pad3_all_digits n⟩, parseNat_pad3]

/-- The component-derived key generator never returns a key in the existing set. -/
theorem generate_virtual_key_from_parts_fresh (mood context instrument style : String)
    (existing : List String) :
    generate_virtual_key_from_parts mood context instrument style existing ∉ existing := by
  intro hmem
  exact (firstFree_spec (serialsUnder (vkPre mood context instrument style) existing)).1
    (generate_from_parts_serial_mem hmem)

/-- The generated key always extends the component prefix by the padded serial. -/
theorem generate_virtual_key_from_parts_shape (mood context instrument style : String)
    (existing : List String) :
    ∃ n, generate_virtual_key_from_parts mood context instrument style existing =
      vkPre mood context instrument style ++ String.mk (pad3 n) ∧
      n ∉ serialsUnder (vkPre mood context instrument style) existing ∧ 1 ≤ n ∧
      (∀ m, 1 ≤ m → m < n → m ∈ serialsUnder (vkPre mood context instrument style) existing) := by
  refine ⟨firstFree (serialsUnder (vkPre mood context instrument style) existing), rfl, ?_, ?_, ?_⟩
  · exact (firstFree_spec _).1
  · exact (firstFree_spec _).2.1
  · exact (firstFree_spec _).2.2

/-! ## Filename-derived key generator -/

def isWordChar (c : Char) : Bool :=
  ('a' ≤ c && c ≤ 'z') || ('A' ≤ c && c ≤ 'Z') || ('0' ≤ c && c ≤ '9') || c = '_'

/-- Sanitized base of `generate_virtual_key_from_filename` (ASCII model of
`re.sub(r"[^\w\-]+", "_", stem.strip()).strip("_")`, falling back to "track"). -/
def sanitizeStem (s : String) : String :=
  let cs := (strTrim s).data
  let core := dropEnds (fun c => c = '_')
    (replaceRuns (fun c => isWordChar c || c = '-') '_' false cs)
  if core = [] then "track" else String.mk core

def fnKey (base : String) (i : Nat) : String := base ++ "_" ++ natStr i

def ffnAux (base : String) (existing : List String) : Nat → Nat → String
  | 0, i => fnKey base i
  | fuel+1, i => if fnKey base i ∈ existing then ffnAux base existing fuel (i + 1) else fnKey base i

/-- `catalog.generate_virtual_key_from_filename`. -/
def generate_virtual_key_from_filename (filename_stem : String) (existing : List String) : String :=
  let base := sanitizeStem filename_stem
  if base ∈ existing then ffnAux base existing (existing.length + 1) 0 else base

theorem fnKey_injective (base : String) {i j : Nat} (h : fnKey base i = fnKey base j) : i = j := by
  apply natStr_injective
  have hd := congrArg String.data h
  simp only [fnKey, string_append_data] at hd
  have := List.append_cancel_left hd
  exact String.ext this

theorem ffnAux_mem_of_result_mem (base : String) (existing : List String) :
    ∀ fuel i, ffnAux base existing fuel i ∈ existing →
      ∀ j, i ≤ j → j ≤ i + fuel → fnKey base j ∈ existing := by
  intro fuel
  induction fuel with
  | zero =>
    intro i h j h1 h2
    have : j = i := by omega
    subst this
    simpa [ffnAux] using h
  | succ f ih =>
    intro i h j h1 h2
    by_cases hmem : fnKey base i ∈ existing
    · simp only [ffnAux, if_pos hmem] at h
      rcases Nat.eq_or_lt_of_le h1 with rfl | hlt
      · exact hmem
      · exact ih (i+1) h j hlt (by omega)
    · simp only [ffnAux, if_neg hmem] at h
      exact absurd h hmem

theorem ffnAux_fresh (base : String) (existing : List String) :
    ffnAux base existing (existing.length + 1) 0 ∉ existing := by
  intro h
  have hall : ∀ j, j ≤ existing.length + 1 → fnKey base j ∈ existing := fun j hj =>
    ffnAux_mem_of_result_mem base existing (existing.length + 1) 0 h j (Nat.zero_le j) (by omega)
  have hsub : (List.range (existing.length + 2)).map (fnKey base) ⊆ existing := by
    intro x hx
    simp only [List.mem_map, List.mem_range] at hx
    obtain ⟨j, hj, rfl⟩ := hx
    exact hall j (by omega)
  have hnodup : ((List.range (existing.length + 2)).map (fnKey base)).Nodup :=
    List.Nodup.map (fun a b hab => fnKey_injective base hab) (List.nodup_range _)
  have hlen := List.Subperm.length_le (List.Nodup.subperm hnodup hsub)
  simp at hlen

/-- The filename-derived key generator never returns a key in the existing set. -/
theorem generate_virtual_key_from_filename_fresh (filename_stem : String)
    (existing : List String) :
    generate_virtual_key_from_filename filename_stem existing ∉ existing := by
  unfold generate_virtual_key_from_filename
  by_cases h : sanitizeStem filename_stem ∈ existing
  · simpa [h] using ffnAux_fresh (sanitizeStem filename_stem) existing
  · simp [h]

/-! ## Data model (`app/models.py`) -/

structure TrackFingerprint where
  sha1 : String
  file_size : Int
  modified_time : Rat
deriving DecidableEq

structure LoopInfo where
  can_loop : Bool := false
  loop_start_sec : Option Rat := none
  loop_end_sec : Option Rat := none
  intro_sec : Option Rat := none
  outro_sec : Option Rat := none
deriving DecidableEq

structure LicensingInfo where
  source_pack : String := ""
  license_type : String := ""
  proof_url_or_file : String := ""
  attribution_required : Bool := false
  attribution_text : String := ""
deriving DecidableEq

structure Track where
  track_id : Nat
  cluster_id : Option Nat := none
  original_path : String
  file_format : String
  raw_file_name : String := ""
  raw_parent_dir_name : String := ""
  fingerprint : TrackFingerprint
  virtual_key : String
  primary_role : String := ""
  tags : List (String × List String) := []
  scales : List (String × Int) := []
  loop_info : LoopInfo := {}
  length_sec : Option Rat := none
  bpm : Option Int := none
  notes : String := ""
  licensing : LicensingInfo := {}
  missing_file : Bool := false
  duplicate_of : Option Nat := none
deriving DecidableEq

structure ScaleDef where
  min : Int := 0
  max : Int := 5
  default : Int := 0
deriving DecidableEq

structure Vocab where
  primary_roles : List String := []
  tag_vocab : List (String × List String) := []
  scale_defs : List (String × ScaleDef) := []
  scale_names : List String := []
deriving DecidableEq

structure Cluster where
  cluster_id : Nat
  name : String
  created_at : String := ""
deriving DecidableEq

structure Catalog where
  schema_version : Int := 2
  created_at : String := ""
  updated_at : String := ""
  raw_music_directory : String := ""
  vocab : Vocab := {}
  aliases : List (String × String) := []
  clusters : List Cluster := []
  tracks : List Track := []
deriving DecidableEq

/-! ## Association-list dict operations (Python dict semantics) -/

def alookup {α : Type} (m : List (String × α)) (k : String) : Option α :=
  (m.find? (fun p => p.1 = k)).map (·.2)

/-- Python dict assignment: replace the first entry with this key in place,
otherwise append at the end. -/
def aset {α : Type} (m : List (String × α)) (k : String) (v : α) : List (String × α) :=
  match m with
  | [] => [(k, v)]
  | (k', v') :: rest => if k' = k then (k, v) :: rest else (k', v') :: aset rest k v

/-- Python dict `pop`: remove the first entry with this key. -/
def apop {α : Type} (m : List (String × α)) (k : String) : List (String × α) :=
  m.eraseP (fun p => p.1 = k)

theorem alookup_aset_self {α : Type} (m : List (String × α)) (k : String) (v : α) :
    alookup (aset m k v) k = some v := by
  induction m with
  | nil => simp [aset, alookup, List.find?]
  | cons p rest ih =>
    by_cases h : p.1 = k
    · simp [aset, h, alookup, List.find?]
    · simp only [aset]
      rw [if_neg (by exact h)]
      simpa [alookup, List.find?_cons, h] using ih

theorem alookup_aset_ne {α : Type} (m : List (String × α)) (k k' : String) (v : α)
    (h : k ≠ k') : alookup (aset m k v) k' = alookup m k' := by
  induction m with
  | nil => simp [aset, alookup, List.find?, h]
  | cons p rest ih =>
    by_cases hp : p.1 = k
    · simp [aset, hp, alookup, List.find?, h, hp ▸ h]
    · simp only [aset]
      rw [if_neg (by exact hp)]
      by_cases hp' : p.1 = k'
      · simp [alookup, List.find?_cons, hp']
      · simpa [alookup, List.find?_cons, hp'] using ih

/-! ## Path helpers (POSIX relative paths) -/

/-- Split a character list on `'/'` (the component list of a POSIX path). -/
def splitSlash : List Char → List (List Char)
  | [] => [[]]
  | c :: rest =>
    match splitSlash rest with
    | [] => [[c]]
    | g :: gs => if c = '/' then [] :: g :: gs else (c :: g) :: gs

def pathName (rel : String) : String :=
  String.mk (((splitSlash rel.data).getLast?).getD [])

def pathParentName (rel : String) : String :=
  match (splitSlash rel.data).dropLast with
  | [] => ""
  | ps => String.mk ((ps.getLast?).getD [])

def lastDotIdx (cs : List Char) : Option Nat :=
  (cs.reverse.findIdx? (· = '.')).map (fun j => cs.length - 1 - j)

/-- `PurePosixPath(...).stem` of a path's final component. -/
def stemOfName (cs : List Char) : List Char :=
  match lastDotIdx cs with
  | some i => if 0 < i ∧ i < cs.length - 1 then cs.take i else cs
  | none => cs

def pathStem (rel : String) : String := String.mk (stemOfName (pathName rel).data)

/-! ## Vocabulary-driven normalization (`catalog.py` §4.3) -/

/-- The clamp step of `ensure_track_scales`: swap an inverted range, then
clamp `v` into it (`iv = max(mn, min(mx, iv))`). -/
def clampScale (sdef : ScaleDef) (v : Int) : Int :=
  let mn := if sdef.max < sdef.min then sdef.max else sdef.min
  let mx := if sdef.max < sdef.min then sdef.min else sdef.max
  max mn (min mx v)

def scaleStep (sc : List (String × Int)) (p : String × ScaleDef) : List (String × Int) :=
  aset sc p.1 (clampScale p.2 ((alookup sc p.1).getD p.2.default))

/-- `catalog.ensure_track_scales`. `Track.scales` values are typed integers
(per `models.py`), so Python's `int(v)` coercion is the identity and its
uncoercible-fallback branch is unreachable in the typed model. -/
def ensure_track_scales (track : Track) (scale_defs : List (String × ScaleDef)) : Track :=
  { track with scales := scale_defs.foldl scaleStep track.scales }

/-- `catalog.ensure_track_tags`: give every vocabulary group an entry. -/
def ensure_track_tags (track : Track) (tag_vocab : List (String × List String)) : Track :=
  { track with tags := tag_vocab.foldl (fun tg p =>
      if (alookup tg p.1).isSome then tg else tg ++ [(p.1, [])]) track.tags }

/-- `catalog.normalize_tag_value`. -/
def normalize_tag_value (value : String) (aliases : List (String × String)) : String :=
  let key := strTrim value
  if key = "" then "" else (alookup aliases (strLower key)).getD key

def vkGroupNames : List String := ["moods", "usable_in_contexts", "instruments", "styles"]

def unknownTokens : List String := ["unk", "unknown", "none", "-"]

/-- The per-value loop body of `normalize_track_tags`, with `seen` holding the
lowercased values already emitted. -/
def normValues (group : String) (aliases : List (String × String)) :
    List String → List String → List String
  | _, [] => []
  | seen, v :: rest =>
    let nv := normalize_tag_value v aliases
    if nv = "" then normValues group aliases seen rest
    else if group ∈ vkGroupNames ∧ strLower nv ∈ unknownTokens then
      normValues group aliases seen rest
    else if strLower nv ∈ seen then normValues group aliases seen rest
    else nv :: normValues group aliases (strLower nv :: seen) rest

/-- `catalog.normalize_track_tags`. -/
def normalize_track_tags (track : Track) (vocab : Vocab)
    (aliases : List (String × String)) : Track :=
  { track with tags := track.tags.map (fun p =>
      if (alookup vocab.tag_vocab p.1).isNone then p
      else (p.1, normValues p.1 aliases [] p.2)) }

example : normValues "moods" [] [] ["Calm", "calm", " ", "unk", "Epic"] = ["Calm", "Epic"] := by
  decide

example : normValues "for_game_settings" [("sf", "Sci-Fi")] [] ["sf", "sci-fi", "unk"] =
    ["Sci-Fi", "unk"] := by decide

/-! ## Scale clamping lemmas (claim C7) -/

theorem clampScale_spec (sdef : ScaleDef) (v : Int) :
    (if sdef.max < sdef.min then sdef.max else sdef.min) ≤ clampScale sdef v ∧
    clampScale sdef v ≤ (if sdef.max < sdef.min then sdef.min else sdef.max) ∧
    (v < (if sdef.max < sdef.min then sdef.max else sdef.min) →
      clampScale sdef v = (if sdef.max < sdef.min then sdef.max else sdef.min)) ∧
    ((if sdef.max < sdef.min then sdef.min else sdef.max) < v →
      clampScale sdef v = (if sdef.max < sdef.min then sdef.min else sdef.max)) ∧
    ((if sdef.max < sdef.min then sdef.max else sdef.min) ≤ v →
      v ≤ (if sdef.max < sdef.min then sdef.min else sdef.max) → clampScale sdef v = v) := by
  simp only [clampScale, Int.max_def, Int.min_def]
  by_cases hc : sdef.max < sdef.min <;>
    simp only [hc, if_true, if_false] <;>
    refine ⟨?_, ?_, ?_, ?_, ?_⟩ <;> intros <;> split_ifs at * <;> omega

theorem clampScale_idem (sdef : ScaleDef) (v : Int) :
    clampScale sdef (clampScale sdef v) = clampScale sdef v := by
  simp only [clampScale, Int.max_def, Int.min_def]
  split_ifs <;> omega

theorem scalesFold_lookup_not_mem (defs : List (String × ScaleDef))
    (sc : List (String × Int)) (name : String) (h : name ∉ defs.map Prod.fst) :
    alookup (defs.foldl scaleStep sc) name = alookup sc name := by
  induction defs generalizing sc with
  | nil => rfl
  | cons p rest ih =>
    simp only [List.map_cons, List.mem_cons] at h
    push_neg at h
    simp only [List.foldl_cons]
    rw [ih _ h.2, scaleStep, alookup_aset_ne _ _ _ _ (fun he => h.1 he.symm)]

theorem scalesFold_lookup (defs : List (String × ScaleDef)) (sc : List (String × Int))
    (name : String) (sdef : ScaleDef) (hnd : (defs.map Prod.fst).Nodup)
    (hmem : (name, sdef) ∈ defs) :
    alookup (defs.foldl scaleStep sc) name =
      some (clampScale sdef ((alookup sc name).getD sdef.default)) := by
  induction defs generalizing sc with
  | nil => simp at hmem
  | cons p rest ih =>
    simp only [List.map_cons, List.nodup_cons] at hnd
    rcases List.mem_cons.mp hmem with heq | hmem'
    · subst heq
      simp only [List.foldl_cons]
      rw [scalesFold_lookup_not_mem rest _ name hnd.1]
      exact alookup_aset_self sc name _
    · have hne : p.1 ≠ name := fun he => hnd.1 (he ▸ List.mem_map_of_mem Prod.fst hmem')
      simp only [List.foldl_cons]
      rw [ih _ hnd.2 hmem', scaleStep, alookup_aset_ne _ _ _ _ hne]

theorem aset_eq_self_of_lookup {α : Type} (m : List (String × α)) (k : String) (v : α)
    (h : alookup m k = some v) : aset m k v = m := by
  induction m with
  | nil => exact Option.noConfusion h
  | cons p rest ih =>
    by_cases hp : p.1 = k
    · rw [alookup, List.find?_cons_of_pos _ (by simpa using hp)] at h
      simp only [Option.map_some', Option.some_inj] at h
      simp only [aset, if_pos hp]
      rw [← h, ← hp]
    · rw [alookup, List.find?_cons_of_neg _ (by simpa using hp)] at h
      simp only [aset]
      rw [if_neg hp, ih h]

theorem scalesFold_idem (defs : List (String × ScaleDef)) (sc : List (String × Int))
    (hnd : (defs.map Prod.fst).Nodup) :
    (defs.foldl scaleStep (defs.foldl scaleStep sc)) = defs.foldl scaleStep sc := by
  -- Each step of the second pass rewrites an already-clamped value to itself.
  suffices h : ∀ m, (∀ name sdef, (name, sdef) ∈ defs →
      alookup m name = some (clampScale sdef ((alookup sc name).getD sdef.default))) →
      defs.foldl scaleStep m = m by
    apply h
    intro name sdef hmem
    exact scalesFold_lookup defs sc name sdef hnd hmem
  intro m hm
  induction defs generalizing m with
  | nil => rfl
  | cons p rest ih =>
    simp only [List.foldl_cons]
    have hp := hm p.1 p.2 (List.mem_cons_self _ _)
    have hstep : scaleStep m p = m := by
      rw [scaleStep, hp]
      simp only [Option.getD_some]
      rw [clampScale_idem, aset_eq_self_of_lookup _ _ _ hp]
    rw [hstep]
    exact ih (by
      simp only [List.map_cons, List.nodup_cons] at hnd
      exact hnd.2) m (fun name sdef hmem => hm name sdef (List.mem_cons_of_mem _ hmem))

/-! ## Tag normalization lemmas (claim C6) -/

/-- Whether `normalize_track_tags` keeps a resolved tag value: nonempty, and,
for the four virtual-key groups, not an explicit unknown token. -/
def keepTag (group nv : String) : Bool :=
  !(nv == "") && !(decide (group ∈ vkGroupNames) && decide (strLower nv ∈ unknownTokens))

/-- Case-insensitive de-duplication keeping first-seen order and casing,
relative to an already-seen set of lowercased values. -/
def dedupCIAux (seen : List String) : List String → List String
  | [] => []
  | v :: rest =>
    if strLower v ∈ seen then dedupCIAux seen rest
    else v :: dedupCIAux (strLower v :: seen) rest

/-- Case-insensitive de-duplication preserving first-seen order and casing. -/
def dedupCI (l : List String) : List String :=
  l.foldl (fun acc v =>
    if acc.any (fun w => strLower w = strLower v) then acc else acc ++ [v]) []

theorem normValues_eq_dedup_filter_map (group : String) (aliases : List (String × String)) :
    ∀ (values seen : List String),
      normValues group aliases seen values =
        dedupCIAux seen ((values.map (fun v => normalize_tag_value v aliases)).filter
          (keepTag group)) := by
  intro values
  induction values with
  | nil => intro seen; rfl
  | cons v rest ih =>
    intro seen
    simp only [normValues, List.map_cons, List.filter_cons]
    by_cases h1 : normalize_tag_value v aliases = ""
    · rw [if_pos h1]
      have : keepTag group (normalize_tag_value v aliases) = false := by
        simp [keepTag, h1]
      rw [this]
      simp only [Bool.false_eq_true, if_false]
      exact ih seen
    · rw [if_neg h1]
      by_cases h2 : group ∈ vkGroupNames ∧ strLower (normalize_tag_value v aliases) ∈ unknownTokens
      · rw [if_pos h2]
        have : keepTag group (normalize_tag_value v aliases) = false := by
          simp [keepTag, h1, h2.1, h2.2]
        rw [this]
        simp only [Bool.false_eq_true, if_false]
        exact ih seen
      · rw [if_neg h2]
        have hk : keepTag group (normalize_tag_value v aliases) = true := by
          simp only [keepTag, Bool.and_eq_true, Bool.not_eq_true', beq_eq_false_iff_ne,
            ne_eq, Bool.and_eq_false_iff, decide_eq_false_iff_not]
          refine ⟨h1, ?_⟩
          by_cases hg : group ∈ vkGroupNames
          · exact Or.inr (by simpa [hg] using fun hu => h2 ⟨hg, hu⟩)
          · exact Or.inl hg
        rw [hk]
        simp only [if_true]
        by_cases h3 : strLower (normalize_tag_value v aliases) ∈ seen
        · rw [if_pos h3, dedupCIAux, if_pos h3]
          exact ih seen
        · rw [if_neg h3, dedupCIAux, if_neg h3, ih]

theorem dedupCIAux_congr (l : List String) :
    ∀ seen₁ seen₂, (∀ x, x ∈ seen₁ ↔ x ∈ seen₂) →
      dedupCIAux seen₁ l = dedupCIAux seen₂ l := by
  induction l with
  | nil => intro seen₁ seen₂ _; rfl
  | cons v rest ih =>
    intro seen₁ seen₂ hiff
    simp only [dedupCIAux]
    by_cases h : strLower v ∈ seen₁
    · rw [if_pos h, if_pos ((hiff _).mp h)]
      exact ih seen₁ seen₂ hiff
    · rw [if_neg h, if_neg (fun hc => h ((hiff _).mpr hc))]
      rw [ih (strLower v :: seen₁) (strLower v :: seen₂) (fun x => by
        simp only [List.mem_cons]
        exact or_congr Iff.rfl (hiff x))]

theorem dedupCIAux_eq_foldl (l : List String) :
    ∀ acc, l.foldl (fun acc v =>
        if acc.any (fun w => strLower w = strLower v) then acc else acc ++ [v]) acc =
      acc ++ dedupCIAux (acc.map strLower) l := by
  induction l with
  | nil => intro acc; simp [dedupCIAux]
  | cons v rest ih =>
    intro acc
    simp only [List.foldl_cons, dedupCIAux]
    by_cases h : strLower v ∈ acc.map strLower
    · have hany : acc.any (fun w => strLower w = strLower v) = true := by
        simp only [List.mem_map] at h
        obtain ⟨w, hw, hww⟩ := h
        simp only [List.any_eq_true, decide_eq_true_eq]
        exact ⟨w, hw, hww⟩
      rw [hany, if_pos h]
      exact ih acc
    · have hany : acc.any (fun w => strLower w = strLower v) = false := by
        simp only [List.any_eq_false, decide_eq_true_eq]
        intro w hw hww
        exact h (List.mem_map.mpr ⟨w, hw, hww⟩)
      rw [hany, if_neg h]
      simp only [Bool.false_eq_true, if_false]
      rw [ih (acc ++ [v])]
      have hd := dedupCIAux_congr rest (List.map strLower acc ++ [strLower v])
        (strLower v :: List.map strLower acc) (fun x => by
          simp [List.mem_append, List.mem_cons, or_comm])
      simp only [List.map_append, List.map_cons, List.map_nil, hd, List.append_assoc,
        List.singleton_append]

theorem dedupCI_eq_aux (l : List String) : dedupCI l = dedupCIAux [] l := by
  unfold dedupCI
  rw [dedupCIAux_eq_foldl l []]
  simp

/-- C6 amended: the normalization pass gives every vocabulary tag group an
entry, and rewrites each group present in the vocabulary to: resolve each
value through the alias table, drop empty values and (in the four virtual-key
groups) explicit unknown tokens, and de-duplicate case-insensitively keeping
first-seen order and casing; groups not in the vocabulary are left unchanged. -/
theorem C6_tag_normalization (track : Track) (vocab : Vocab)
    (aliases : List (String × String)) :
    (∀ g, (alookup vocab.tag_vocab g).isSome →
      (alookup (ensure_track_tags track vocab.tag_vocab).tags g).isSome) ∧
    (normalize_track_tags track vocab aliases).tags = track.tags.map (fun p =>
      if (alookup vocab.tag_vocab p.1).isNone then p
      else (p.1, dedupCI ((p.2.map (fun v => normalize_tag_value v aliases)).filter
        (keepTag p.1)))) := by
  constructor
  · intro g hg
    simp only [ensure_track_tags]
    -- the fold only ever appends entries and inserts one for every vocab key
    have hmono : ∀ (tv : List (String × List String)) (tg : List (String × List String)),
        (alookup tg g).isSome →
        (alookup (tv.foldl (fun tg p =>
          if (alookup tg p.1).isSome then tg else tg ++ [(p.1, [])]) tg) g).isSome := by
      intro tv
      induction tv with
      | nil => intro tg h; exact h
      | cons p rest ih =>
        intro tg h
        simp only [List.foldl_cons]
        by_cases hp : (alookup tg p.1).isSome
        · rw [if_pos hp]; exact ih tg h
        · rw [if_neg hp]
          apply ih
          obtain ⟨v, hv⟩ := Option.isSome_iff_exists.mp h
          have : alookup (tg ++ [(p.1, [])]) g = some v := by
            simp only [alookup] at hv ⊢
            rw [List.find?_append]
            simp only [Option.map_eq_some'] at hv
            obtain ⟨q, hq1, hq2⟩ := hv
            simp [hq1, hq2]
          simp [this]
    have hkey : ∀ (tv : List (String × List String)) (tg : List (String × List String)),
        (alookup tv g).isSome →
        (alookup (tv.foldl (fun tg p =>
          if (alookup tg p.1).isSome then tg else tg ++ [(p.1, [])]) tg) g).isSome := by
      intro tv
      induction tv with
      | nil => intro tg h; exact Bool.noConfusion h
      | cons p rest ih =>
        intro tg h
        simp only [List.foldl_cons]
        by_cases hpg : p.1 = g
        · subst hpg
          by_cases hp : (alookup tg p.1).isSome
          · rw [if_pos hp]; exact hmono rest tg hp
          · rw [if_neg hp]
            apply hmono rest
            have : alookup (tg ++ [(p.1, [])]) p.1 = some [] := by
              simp only [alookup]
              rw [List.find?_append]
              have hnone : tg.find? (fun q => q.1 = p.1) = none := by
                by_contra hc
                obtain ⟨q, hq⟩ := Option.ne_none_iff_exists'.mp hc
                simp [alookup, hq] at hp
              simp [hnone, List.find?]
            simp [this]
        · have hg' : (alookup rest g).isSome := by
            have hx : List.find? (fun q => decide (q.1 = g)) (p :: rest) =
                List.find? (fun q => decide (q.1 = g)) rest :=
              List.find?_cons_of_neg _ (by simp [hpg])
            simpa [alookup, hx] using h
          by_cases hp : (alookup tg p.1).isSome
          · rw [if_pos hp]; exact ih tg hg'
          · rw [if_neg hp]; exact ih _ hg'
    exact hkey vocab.tag_vocab track.tags hg
  · simp only [normalize_track_tags]
    congr 1
    funext p
    by_cases h : (alookup vocab.tag_vocab p.1).isNone
    · rw [if_pos h, if_pos h]
    · rw [if_neg h, if_neg h]
      rw [normValues_eq_dedup_filter_map, dedupCI_eq_aux]

/-- Modelled from the claim's words only (for the counterexample): C6 as
stated rewrites a group's list by alias resolution, dropping empty values and
de-duplicating case-insensitively — with no other filtering. -/
def claimTagRewrite (aliases : List (String × String)) (values : List String) : List String :=
  dedupCI ((values.map (fun v => normalize_tag_value v aliases)).filter (fun v => !(v == "")))

/-- C6 counterexample: on the vocabulary group "moods" with value list
`["unk"]` and no aliases, the code drops the explicit unknown token and stores
`[]`, while the claim's described rewrite keeps `["unk"]`. -/
theorem C6_counterexample :
    alookup (normalize_track_tags
      { track_id := 1, original_path := "a.mp3", file_format := "mp3",
        fingerprint := { sha1 := "h", file_size := 1, modified_time := 0 },
        virtual_key := "a", tags := [("moods", ["unk"])] }
      { tag_vocab := [("moods", ["calm"])] } []).tags "moods" = some [] ∧
    claimTagRewrite [] ["unk"] = ["unk"] ∧ ([] : List String) ≠ ["unk"] := by
  refine ⟨?_, ?_, ?_⟩ <;> decide

/-- C7: for every scale definition, `ensure_track_scales` stores the asset's
value (defaulting as given) clamped into the (possibly swapped) `[min, max]`
range — out-of-range values map to the nearest bound, in-range values are
unchanged — and applying the pass twice equals applying it once. -/
theorem C7_scale_clamping (track : Track) (scale_defs : List (String × ScaleDef))
    (hnd : (scale_defs.map Prod.fst).Nodup) :
    (∀ name sdef, (name, sdef) ∈ scale_defs →
      let v := (alookup track.scales name).getD sdef.default
      let lo := if sdef.max < sdef.min then sdef.max else sdef.min
      let hi := if sdef.max < sdef.min then sdef.min else sdef.max
      alookup (ensure_track_scales track scale_defs).scales name = some (clampScale sdef v) ∧
        (v < lo → clampScale sdef v = lo) ∧ (hi < v → clampScale sdef v = hi) ∧
        (lo ≤ v → v ≤ hi → clampScale sdef v = v)) ∧
    ensure_track_scales (ensure_track_scales track scale_defs) scale_defs =
      ensure_track_scales track scale_defs := by
  constructor
  · intro name sdef hmem
    have hs := clampScale_spec sdef ((alookup track.scales name).getD sdef.default)
    exact ⟨scalesFold_lookup scale_defs track.scales name sdef hnd hmem,
      hs.2.2.1, hs.2.2.2.1, hs.2.2.2.2⟩
  · simp only [ensure_track_scales]
    rw [scalesFold_idem scale_defs track.scales hnd]

/-! ## The reconciliation engine (`catalog.scan_and_sync`) -/

/-- One record produced by the fingerprint scanner:
`(rel_path, sha1, size, mtime, file_format, length_sec)`. -/
structure Disc where
  rel_path : String
  sha1 : String
  size : Int
  mtime : Rat
  fmt : String
  length_sec : Option Rat := none
deriving DecidableEq

structure ScanSummary where
  new : Nat := 0
  updated : Nat := 0
  relinked : Nat := 0
  missing : Nat := 0
  duplicates : Nat := 0
deriving DecidableEq

/-- `abs(stored_mtime - mtime) < 1e-6`, computed by cross-multiplication over
the exact rational representations (see `mtClose_iff`). -/
def mtClose (a b : Rat) : Bool :=
  1000000 * (a.num * (b.den : Int) - b.num * (a.den : Int)).natAbs < a.den * b.den

theorem mtClose_iff (a b : Rat) : mtClose a b = true ↔ |a - b| < (1/1000000 : Rat) := by
  have had : (0 : Rat) < (a.den : Rat) := by exact_mod_cast a.pos
  have hbd : (0 : Rat) < (b.den : Rat) := by exact_mod_cast b.pos
  have hpos : (0 : Rat) < (a.den : Rat) * (b.den : Rat) := by positivity
  have ha2 : (a.num : Rat) = a * (a.den : Rat) := by
    have hnd := Rat.num_div_den a
    rwa [div_eq_iff (ne_of_gt had)] at hnd
  have hb2 : (b.num : Rat) = b * (b.den : Rat) := by
    have hnd := Rat.num_div_den b
    rwa [div_eq_iff (ne_of_gt hbd)] at hnd
  have key : a - b = ((a.num * (b.den : Int) - b.num * (a.den : Int) : Int) : Rat) /
      ((a.den : Rat) * (b.den : Rat)) := by
    rw [eq_div_iff (ne_of_gt hpos)]
    push_cast
    rw [ha2, hb2]
    ring
  rw [key, abs_div, abs_of_pos hpos, div_lt_div_iff₀ hpos (by norm_num), one_mul]
  have habs : |((a.num * (b.den : Int) - b.num * (a.den : Int) : Int) : Rat)| =
      (((a.num * (b.den : Int) - b.num * (a.den : Int)).natAbs : Nat) : Rat) := by
    rw [Int.cast_natAbs]
    exact Int.cast_abs.symm
  rw [habs]
  simp only [mtClose, decide_eq_true_eq]
  constructor
  · intro h
    have h0 : (a.num * (b.den : Int) - b.num * (a.den : Int)).natAbs * 1000000 <
        a.den * b.den := by omega
    exact_mod_cast h0
  · intro h
    have h0 : (a.num * (b.den : Int) - b.num * (a.den : Int)).natAbs * 1000000 <
        a.den * b.den := by exact_mod_cast h
    omega

structure VKParts where
  moods : String
  usable_in_contexts : String
  instruments : String
  styles : String
deriving DecidableEq

def pick_unknown_first (tag_vocab : List (String × List String)) (group : String) : String :=
  let vals := (alookup tag_vocab group).getD []
  if "unk" ∈ vals then "unk" else if "unknown" ∈ vals then "unknown" else "unk"

/-- `catalog.default_vk_components`. -/
def default_vk_components (tag_vocab : List (String × List String)) : VKParts :=
  { moods := pick_unknown_first tag_vocab "moods",
    usable_in_contexts := pick_unknown_first tag_vocab "usable_in_contexts",
    instruments := pick_unknown_first tag_vocab "instruments",
    styles := pick_unknown_first tag_vocab "styles" }

def partFor (parts : VKParts) (g : String) : String :=
  if g = "moods" then parts.moods
  else if g = "usable_in_contexts" then parts.usable_in_contexts
  else if g = "instruments" then parts.instruments
  else if g = "styles" then parts.styles
  else ""

/-- `catalog._ensure_track_path_hints`. -/
def _ensure_track_path_hints (t : Track) : Track :=
  { t with
    raw_file_name := if t.raw_file_name = "" then pathName t.original_path else t.raw_file_name,
    raw_parent_dir_name :=
      if t.raw_parent_dir_name = "" then pathParentName t.original_path
      else t.raw_parent_dir_name }

/-- The per-track body of `catalog.ensure_catalog_clusters`, threading the
accumulated tracks, clusters and the fresh-id supply. -/
def eccStep (now : String) : (List Track × List Cluster × Nat) → Track →
    (List Track × List Cluster × Nat)
  | (ts, cs, g), t =>
    match t.cluster_id with
    | some cid =>
      if cs.any (fun c => c.cluster_id = cid) then (ts ++ [t], cs, g)
      else (ts ++ [t],
        cs ++ [{ cluster_id := cid,
                 name := if t.virtual_key = "" then "cluster" else t.virtual_key,
                 created_at := now }], g)
    | none =>
      (ts ++ [{ t with cluster_id := some g }],
        cs ++ [{ cluster_id := g,
                 name := if t.virtual_key = "" then "cluster" else t.virtual_key,
                 created_at := now }], g + 1)

/-- `catalog.ensure_catalog_clusters` (returns the updated fresh-id supply). -/
def ensure_catalog_clusters (cat : Catalog) (gen : Nat) (now : String) : Catalog × Nat :=
  let r := cat.tracks.foldl (eccStep now) ([], cat.clusters, gen)
  ({ cat with
      tracks := r.1, clusters := r.2.1,
      schema_version := if cat.schema_version < 2 then 2 else cat.schema_version }, r.2.2)

def getTrack (ts : List Track) (id : Nat) : Option Track := ts.find? (fun t => t.track_id = id)

def updTrack (ts : List Track) (id : Nat) (f : Track → Track) : List Track :=
  ts.map (fun t => if t.track_id = id then f t else t)

/-- `track_by_relpath` built from the track list (dict comprehension: later
entries with the same path win). -/
def relMap (ts : List Track) : List (String × Nat) :=
  ts.foldl (fun m t => if t.original_path = "" then m else aset m t.original_path t.track_id) []

/-- `existing_keys` (nonempty virtual keys; list with set-membership use). -/
def keySet (ts : List Track) : List String :=
  ts.foldl (fun s t => if t.virtual_key = "" then s else s ++ [t.virtual_key]) []

/-- `canonical_by_sha1`: the first listed track with that hash and no
`duplicate_of` wins. -/
def canonMap (ts : List Track) : List (String × Nat) :=
  ts.foldl (fun m t =>
    if t.fingerprint.sha1 ≠ "" ∧ t.duplicate_of = none ∧ (alookup m t.fingerprint.sha1).isNone
    then m ++ [(t.fingerprint.sha1, t.track_id)] else m) []

/-- The combined per-track backfill applied before the reconciliation loop
(path hints, tag groups, scale clamping, tag normalization). -/
def backfillTrack (voc : Vocab) (aliases : List (String × String)) (t : Track) : Track :=
  normalize_track_tags
    (ensure_track_scales (ensure_track_tags (_ensure_track_path_hints t) voc.tag_vocab)
      voc.scale_defs) voc aliases

/-- The tag/scale backfill applied after the loop (no path-hint pass). -/
def postTrack (voc : Vocab) (aliases : List (String × String)) (t : Track) : Track :=
  normalize_track_tags
    (ensure_track_scales (ensure_track_tags t voc.tag_vocab) voc.scale_defs) voc aliases

/-- `missing_by_name_parent.setdefault(key, []).append(track)`. -/
def mnpAdd (m : List ((String × String) × List Nat)) (k : String × String) (id : Nat) :
    List ((String × String) × List Nat) :=
  match m with
  | [] => [(k, [id])]
  | (k', l) :: rest => if k' = k then (k', l ++ [id]) :: rest else (k', l) :: mnpAdd rest k id

def mnpLookup (m : List ((String × String) × List Nat)) (k : String × String) : List Nat :=
  ((m.find? (fun p => p.1 = k)).map (·.2)).getD []

/-- The fallback-relink candidate index: missing tracks keyed by lowercased
`(filename, parent dir)`. -/
def buildMnp (dE : String → Bool) (ts : List Track) : List ((String × String) × List Nat) :=
  ts.foldl (fun m t =>
    if t.original_path = "" then m
    else if dE t.original_path then m
    else
      let fname := strTrim (strLower t.raw_file_name)
      if fname = "" then m
      else mnpAdd m (fname, strTrim (strLower t.raw_parent_dir_name)) t.track_id) []

/-- `catalog.pick_name_parent_candidate`. -/
def pick_name_parent_candidate (cands : List Track) : Option Track :=
  if cands = [] then none
  else
    let canon := cands.filter (fun t => t.duplicate_of = none)
    if canon.length = 1 then canon.head?
    else if cands.length = 1 then cands.head?
    else none

structure SyncState where
  tracks : List Track
  clusters : List Cluster
  existing_keys : List String
  canonical_by_sha1 : List (String × Nat)
  track_by_relpath : List (String × Nat)
  used_name_relinks : List Nat
  summary : ScanSummary
  gen : Nat
deriving DecidableEq

/-- Creation of a brand-new track entry (shared body of the *new* and
*duplicate* creation branches; they differ only in `duplicate_of`, the counter
bumped and whether the canonical map is extended). -/
def createTrack (voc : Vocab) (initVK : Bool) (now : String) (st : SyncState) (r : Disc)
    (dupOf : Option Nat) : SyncState :=
  let tid := st.gen
  let parts := default_vk_components voc.tag_vocab
  let vk :=
    if initVK then generate_virtual_key_from_filename (pathStem r.rel_path) st.existing_keys
    else generate_virtual_key_from_parts parts.moods parts.usable_in_contexts parts.instruments
      parts.styles st.existing_keys
  let tags := voc.tag_vocab.map (fun p =>
    (p.1, if p.1 ∈ vkGroupNames ∧ partFor parts p.1 ≠ "" then [partFor parts p.1] else []))
  let cid := st.gen + 1
  let newTrack : Track :=
    { track_id := tid, cluster_id := some cid, original_path := r.rel_path,
      file_format := r.fmt, raw_file_name := pathName r.rel_path,
      raw_parent_dir_name := pathParentName r.rel_path,
      fingerprint := { sha1 := r.sha1, file_size := r.size, modified_time := r.mtime },
      virtual_key := vk, primary_role := "", tags := tags,
      scales := voc.scale_defs.map (fun p => (p.1, p.2.default)),
      loop_info := {}, length_sec := r.length_sec, bpm := none, notes := "",
      licensing := {}, missing_file := false, duplicate_of := dupOf }
  { tracks := st.tracks ++ [newTrack],
    clusters := st.clusters ++ [{ cluster_id := cid, name := vk, created_at := now }],
    existing_keys := st.existing_keys ++ [vk],
    canonical_by_sha1 :=
      if dupOf = none then aset st.canonical_by_sha1 r.sha1 tid else st.canonical_by_sha1,
    track_by_relpath := aset st.track_by_relpath r.rel_path tid,
    used_name_relinks := st.used_name_relinks,
    summary :=
      if dupOf = none then { st.summary with new := st.summary.new + 1 }
      else { st.summary with duplicates := st.summary.duplicates + 1 },
    gen := st.gen + 2 }

/-- The fallback name/parent relink of a missing candidate track. -/
def fallbackRelink (st : SyncState) (r : Disc) (cand : Track) : SyncState :=
  let fname := pathName r.rel_path
  let parent := pathParentName r.rel_path
  let old_sha := cand.fingerprint.sha1
  let old_path := cand.original_path
  let rp1 := apop st.track_by_relpath old_path
  let tracks' := updTrack st.tracks cand.track_id (fun c =>
    { c with
      original_path := r.rel_path, file_format := r.fmt,
      fingerprint := { sha1 := r.sha1, file_size := r.size, modified_time := r.mtime },
      raw_file_name := fname, raw_parent_dir_name := parent,
      length_sec := match r.length_sec with | some l => some l | none => c.length_sec,
      missing_file := false })
  let canon' :=
    if cand.duplicate_of = none then
      let m1 :=
        if old_sha ≠ "" ∧ alookup st.canonical_by_sha1 old_sha = some cand.track_id
        then apop st.canonical_by_sha1 old_sha else st.canonical_by_sha1
      aset m1 r.sha1 cand.track_id
    else st.canonical_by_sha1
  { st with
    tracks := tracks', track_by_relpath := aset rp1 r.rel_path cand.track_id,
    used_name_relinks := st.used_name_relinks ++ [cand.track_id],
    canonical_by_sha1 := canon',
    summary := { st.summary with relinked := st.summary.relinked + 1 } }

/-- The body of the reconciliation loop of `scan_and_sync`, one discovered
record at a time. -/
def processRecord (dE : String → Bool) (initVK : Bool) (voc : Vocab)
    (mnp : List ((String × String) × List Nat)) (now : String)
    (st : SyncState) (r : Disc) : SyncState :=
  let existing_track := (alookup st.track_by_relpath r.rel_path).bind (getTrack st.tracks)
  match (alookup st.canonical_by_sha1 r.sha1).bind (getTrack st.tracks) with
  | none =>
    match existing_track with
    | none =>
      let fname := pathName r.rel_path
      let parent := pathParentName r.rel_path
      let key := (strTrim (strLower fname), strTrim (strLower parent))
      let cands := (mnpLookup mnp key).filterMap (getTrack st.tracks)
      match pick_name_parent_candidate cands with
      | some cand =>
        if cand.track_id ∉ st.used_name_relinks ∧ ¬ dE cand.original_path = true then
          fallbackRelink st r cand
        else createTrack voc initVK now st r none
      | none => createTrack voc initVK now st r none
    | some _ => createTrack voc initVK now st r none
  | some canon =>
    let st := { st with
      tracks := updTrack st.tracks canon.track_id (fun c => { c with missing_file := false }) }
    if canon.original_path = r.rel_path then
      if canon.fingerprint.file_size ≠ r.size ∨ ¬ mtClose canon.fingerprint.modified_time r.mtime
      then
        { st with
          tracks := updTrack st.tracks canon.track_id (fun c =>
            { c with
              fingerprint := { c.fingerprint with file_size := r.size, modified_time := r.mtime },
              file_format := r.fmt,
              length_sec :=
                if c.length_sec = none ∧ r.length_sec ≠ none then r.length_sec
                else c.length_sec }),
          summary := { st.summary with updated := st.summary.updated + 1 } }
      else st
    else if ¬ dE canon.original_path = true then
      let old_path := canon.original_path
      { st with
        tracks := updTrack st.tracks canon.track_id (fun c =>
          { c with
            original_path := r.rel_path, file_format := r.fmt,
            raw_file_name := pathName r.rel_path,
            raw_parent_dir_name := pathParentName r.rel_path,
            fingerprint := { c.fingerprint with file_size := r.size, modified_time := r.mtime },
            length_sec :=
              if c.length_sec = none ∧ r.length_sec ≠ none then r.length_sec
              else c.length_sec }),
        track_by_relpath := aset (apop st.track_by_relpath old_path) r.rel_path canon.track_id,
        summary := { st.summary with relinked := st.summary.relinked + 1 } }
    else
      match existing_track with
      | some et =>
        { st with
          tracks := updTrack st.tracks et.track_id (fun c =>
            { c with
              missing_file := false, raw_file_name := pathName r.rel_path,
              raw_parent_dir_name := pathParentName r.rel_path,
              duplicate_of :=
                if c.duplicate_of = none ∧ c.track_id ≠ canon.track_id
                then some canon.track_id else c.duplicate_of }),
          summary :=
            if et.duplicate_of = none ∧ et.track_id ≠ canon.track_id
            then { st.summary with updated := st.summary.updated + 1 } else st.summary }
      | none => createTrack voc initVK now st r (some canon.track_id)

/-- `catalog.scan_and_sync`: reconcile the discovered records with the
catalog. `dE` is the `_file_exists` filesystem predicate; the returned `Nat`
is the updated fresh-id supply. -/
def scan_and_sync (dE : String → Bool) (discovered : List Disc) (initVK : Bool)
    (cat : Catalog) (gen : Nat) (now : String) : Catalog × ScanSummary × Nat :=
  let ec := ensure_catalog_clusters cat gen now
  let cat1 := ec.1
  let rp0 := relMap cat1.tracks
  let keys0 := keySet cat1.tracks
  let canon0 := canonMap cat1.tracks
  let tracks1 := cat1.tracks.map (backfillTrack cat1.vocab cat1.aliases)
  let mnp := buildMnp dE tracks1
  let tracks2 := tracks1.map (fun t => { t with missing_file := true })
  let st0 : SyncState :=
    { tracks := tracks2, clusters := cat1.clusters, existing_keys := keys0,
      canonical_by_sha1 := canon0, track_by_relpath := rp0, used_name_relinks := [],
      summary := {}, gen := ec.2 }
  let st1 := discovered.foldl (processRecord dE initVK cat1.vocab mnp now) st0
  let tracks3 := st1.tracks.map (postTrack cat1.vocab cat1.aliases)
  let missing_count := (tracks3.filter (fun t => t.missing_file)).length
  ({ cat1 with tracks := tracks3, clusters := st1.clusters },
    { st1.summary with missing := missing_count }, st1.gen)

/-! ## Claim C1: a concrete catalog on which reconciliation is not idempotent -/

/-- Asset whose file at `p.mp3` was edited in place (stored hash `Z`, the file
now hashes to `X`). -/
def c1TrackE : Track :=
  { track_id := 10, cluster_id := some 100, original_path := "p.mp3", file_format := "mp3",
    raw_file_name := "p.mp3", raw_parent_dir_name := "",
    fingerprint := { sha1 := "Z", file_size := 3, modified_time := 0 },
    virtual_key := "e" }

/-- Canonical asset for hash `X` at `c.mp3`. -/
def c1TrackC : Track :=
  { track_id := 11, cluster_id := some 101, original_path := "c.mp3", file_format := "mp3",
    raw_file_name := "c.mp3", raw_parent_dir_name := "",
    fingerprint := { sha1 := "X", file_size := 5, modified_time := 0 },
    virtual_key := "c" }

def c1Cat : Catalog :=
  { raw_music_directory := "raw",
    clusters := [{ cluster_id := 100, name := "e" }, { cluster_id := 101, name := "c" }],
    tracks := [c1TrackE, c1TrackC] }

/-- The static filesystem: `c.mp3` holds content `X`, `p.mp3` now also holds
content `X` (edited in place), and `q.mp3` holds content `Z`. -/
def c1Disc : List Disc :=
  [{ rel_path := "c.mp3", sha1 := "X", size := 5, mtime := 0, fmt := "mp3" },
   { rel_path := "p.mp3", sha1 := "X", size := 7, mtime := 0, fmt := "mp3" },
   { rel_path := "q.mp3", sha1 := "Z", size := 3, mtime := 0, fmt := "mp3" }]

def c1DE : String → Bool := fun p => p = "c.mp3" || p = "p.mp3" || p = "q.mp3"

def c1Run1 : Catalog × ScanSummary × Nat := scan_and_sync c1DE c1Disc false c1Cat 1000 "t1"

def c1Run2 : Catalog × ScanSummary × Nat :=
  scan_and_sync c1DE c1Disc false c1Run1.1 c1Run1.2.2 "t2"

/-- C1: reconciliation is NOT idempotent. On the catalog `c1Cat` (asset `E`
whose file was edited in place and got linked as a duplicate of `C`, leaving
its stale hash `Z` with no canonical entry), a second `scan_and_sync` over the
identical discovered records reports `new = 1` and `missing = 1` — not the
all-zero summary the claim requires — and appends a brand-new asset, growing
the catalog on every further rescan. -/
theorem C1_scan_not_idempotent :
    c1Run1.2.1 = { new := 0, updated := 1, relinked := 0, missing := 0, duplicates := 1 } ∧
    c1Run2.2.1 = { new := 1, updated := 0, relinked := 0, missing := 1, duplicates := 0 } ∧
    c1Run1.1.tracks.length = 3 ∧ c1Run2.1.tracks.length = 4 ∧
    c1Run2.1.tracks ≠ c1Run1.1.tracks := by
  refine ⟨?_, ?_, ?_, ?_, ?_⟩ <;> decide

/-! ## Claim C8: component-derived key generation -/

/-- C8: `generate_virtual_key_from_parts` returns the slugged
`mood_context_instrument_style_` prefix followed by the 3-zero-padded
smallest positive serial whose value is not an all-digit suffix of an
existing key under that exact prefix, and the result is never in the
existing set. -/
theorem C8_component_key_generation (mood context instrument style : String)
    (existing : List String) :
    ∃ n, generate_virtual_key_from_parts mood context instrument style existing =
        vkPre mood context instrument style ++ String.mk (pad3 n) ∧
      1 ≤ n ∧ n ∉ serialsUnder (vkPre mood context instrument style) existing ∧
      (∀ m, 1 ≤ m → m < n → m ∈ serialsUnder (vkPre mood context instrument style) existing) ∧
      generate_virtual_key_from_parts mood context instrument style existing ∉ existing := by
  obtain ⟨n, heq, hnot, hpos, hmin⟩ :=
    generate_virtual_key_from_parts_shape mood context instrument style existing
  exact ⟨n, heq, hpos, hnot, hmin,
    generate_virtual_key_from_parts_fresh mood context instrument style existing⟩

theorem C7_scale_clamping_witness :
    alookup (ensure_track_scales
      { track_id := 1, original_path := "a.mp3", file_format := "mp3",
        fingerprint := { sha1 := "h", file_size := 1, modified_time := 0 },
        virtual_key := "a", scales := [("energy", 9)] }
      [("energy", { min := 0, max := 5, default := 0 })]).scales "energy" = some 5 := by
  have h := (C7_scale_clamping
    { track_id := 1, original_path := "a.mp3", file_format := "mp3",
      fingerprint := { sha1 := "h", file_size := 1, modified_time := 0 },
      virtual_key := "a", scales := [("energy", 9)] }
    [("energy", { min := 0, max := 5, default := 0 })] (by decide)).1
    "energy" { min := 0, max := 5, default := 0 } (by decide)
  rw [h.1]
  decide

/-! ## Cluster merge (`main.api_clusters_merge`) -/

/-- `main._pick_identity_value`: the first selected value of a virtual-key
group, or `""` when nothing is selected. -/
def pickIdentity (t : Track) (group : String) : String :=
  match alookup t.tags group with
  | some (v :: _) => v
  | _ => ""

def nplAux (seen : List String) : List String → List String
  | [] => []
  | x :: rest =>
    if x = "" then nplAux seen rest
    else if x ∈ seen then nplAux seen rest
    else x :: nplAux (x :: seen) rest

/-- `main.api_clusters_merge._normalize_primary_list`. -/
def _normalize_primary_list (primary : String) (values : List String) : List String :=
  if primary = "" then nplAux [] values else primary :: nplAux [primary] values

/-- The template's four identity-group lists written back over its tag map
(`t.tags[VK_GROUPS[g]] = list(template_g_list)` after the dict copy). -/
def mergedTemplateTags (template : Track) : List (String × List String) :=
  aset (aset (aset (aset template.tags "moods"
      (_normalize_primary_list (pickIdentity template "moods")
        ((alookup template.tags "moods").getD [])))
    "usable_in_contexts"
      (_normalize_primary_list (pickIdentity template "usable_in_contexts")
        ((alookup template.tags "usable_in_contexts").getD [])))
    "instruments"
      (_normalize_primary_list (pickIdentity template "instruments")
        ((alookup template.tags "instruments").getD [])))
    "styles"
      (_normalize_primary_list (pickIdentity template "styles")
        ((alookup template.tags "styles").getD []))

/-- The per-track move of the merge loop: source-cluster tracks are pointed at
the target cluster and receive the template's shared metadata. -/
def moveTrack (template : Track) (target source : Nat) (t : Track) : Track :=
  if t.cluster_id = some source then
    { t with
      cluster_id := some target, bpm := template.bpm,
      scales := template.scales, tags := mergedTemplateTags template,
      licensing := template.licensing }
  else t

/-- The Python tuple order `(x.original_path or '', str(x.track_id))`. -/
def mergeOrd (a b : Track) : Bool :=
  decide (a.original_path < b.original_path) ||
    (decide (a.original_path = b.original_path) &&
      decide (natStr a.track_id ≤ natStr b.track_id))

def insertOrd (x : Track) : List Track → List Track
  | [] => [x]
  | y :: ys => if mergeOrd x y then x :: y :: ys else y :: insertOrd x ys

/-- Stable sort by `mergeOrd` (all sort keys are distinct when track ids are,
so this yields the same list as Python's `sorted`). -/
def sortTracks : List Track → List Track
  | [] => []
  | x :: xs => insertOrd x (sortTracks xs)

/-- The virtual-key regeneration loop run over the merged target cluster:
each track in order gets a fresh key from the unified identity components
against the reserved set, which then grows by that key. -/
def regenStep (mood ctx inst style : String) (acc : List Track × List String) (tt : Track) :
    List Track × List String :=
  let new_vk := generate_virtual_key_from_parts mood ctx inst style acc.2
  (updTrack acc.1 tt.track_id (fun c => { c with virtual_key := new_vk }), acc.2 ++ [new_vk])

/-- `main.api_clusters_merge`. Errors are the HTTP 4xx rejections; on success
returns the updated catalog and the number of moved tracks. (`st.save()` only
refreshes `updated_at` and persists, which the in-memory model omits.) -/
def api_clusters_merge (cat : Catalog) (gen : Nat) (now : String) (target source : Nat) :
    Except String (Catalog × Nat) :=
  if target = source then .error "Cannot merge a cluster into itself"
  else
    let cat1 := (ensure_catalog_clusters cat gen now).1
    if (cat1.clusters.find? (fun c => c.cluster_id = target)).isNone ∨
        (cat1.clusters.find? (fun c => c.cluster_id = source)).isNone then
      .error "Cluster not found"
    else
      let target_tracks := cat1.tracks.filter (fun t => t.cluster_id = some target)
      let source_tracks := cat1.tracks.filter (fun t => t.cluster_id = some source)
      match target_tracks, source_tracks with
      | [], _ => .error "Target cluster has no tracks"
      | _ :: _, [] =>
        .ok ({ cat1 with
          clusters := cat1.clusters.filter (fun c => ¬ c.cluster_id = source) }, 0)
      | template :: _, _ :: _ =>
        let mood := pickIdentity template "moods"
        let ctx := pickIdentity template "usable_in_contexts"
        let inst := pickIdentity template "instruments"
        let style := pickIdentity template "styles"
        let tracksA := cat1.tracks.map (moveTrack template target source)
        let reserved0 := (tracksA.filter (fun x =>
          x.virtual_key ≠ "" ∧ ¬ x.cluster_id = some target)).map (fun x => x.virtual_key)
        let sortedTT := sortTracks (tracksA.filter (fun t => t.cluster_id = some target))
        let tracksB := (sortedTT.foldl (regenStep mood ctx inst style) (tracksA, reserved0)).1
        .ok ({ cat1 with
          tracks := tracksB,
          clusters := cat1.clusters.filter (fun c => ¬ c.cluster_id = source) },
          source_tracks.length)

/-! ## Support lemmas for the cluster-merge proofs -/

/-- The data-model invariant of §3: every asset's `cluster_id` references an
existing cluster. -/
def WellClustered (cat : Catalog) : Prop :=
  ∀ t ∈ cat.tracks, ∃ cid, t.cluster_id = some cid ∧ ∃ c ∈ cat.clusters, c.cluster_id = cid

theorem eccFold_of_valid (now : String) :
    ∀ (l ts : List Track) (cs : List Cluster) (g : Nat),
      (∀ t ∈ l, ∃ cid, t.cluster_id = some cid ∧ ∃ c ∈ cs, c.cluster_id = cid) →
      l.foldl (eccStep now) (ts, cs, g) = (ts ++ l, cs, g) := by
  intro l
  induction l with
  | nil => intro ts cs g _; simp
  | cons t rest ih =>
    intro ts cs g h
    obtain ⟨cid, hcid, c, hc, hcc⟩ := h t (List.mem_cons_self _ _)
    have hany : cs.any (fun c => c.cluster_id = cid) = true := by
      simp only [List.any_eq_true, decide_eq_true_eq]
      exact ⟨c, hc, hcc⟩
    simp only [List.foldl_cons, eccStep, hcid, hany, if_true]
    rw [ih (ts ++ [t]) cs g (fun u hu => h u (List.mem_cons_of_mem _ hu))]
    simp

theorem ensure_of_wellClustered (cat : Catalog) (gen : Nat) (now : String)
    (h : WellClustered cat) :
    (ensure_catalog_clusters cat gen now).1.tracks = cat.tracks ∧
    (ensure_catalog_clusters cat gen now).1.clusters = cat.clusters ∧
    (ensure_catalog_clusters cat gen now).1.vocab = cat.vocab ∧
    (ensure_catalog_clusters cat gen now).1.aliases = cat.aliases ∧
    (ensure_catalog_clusters cat gen now).2 = gen := by
  have hfold := eccFold_of_valid now cat.tracks [] cat.clusters gen
    (fun t ht => by
      obtain ⟨cid, h1, c, h2, h3⟩ := h t ht
      exact ⟨cid, h1, c, h2, h3⟩)
  simp only [ensure_catalog_clusters, hfold]
  simp

theorem updTrack_map_general {α : Type} (ts : List Track) (id : Nat) (f : Track → Track)
    (g : Track → α) (hf : ∀ t, g (f t) = g t) :
    (updTrack ts id f).map g = ts.map g := by
  simp only [updTrack, List.map_map]
  apply List.map_congr_left
  intro t _
  by_cases ht : t.track_id = id <;> simp [ht, hf]

/-- The id/key pairing the regeneration loop produces. -/
def regenPairs (m c i s : String) : List String → List Track → List (Nat × String)
  | _, [] => []
  | res, t :: rest =>
    let k := generate_virtual_key_from_parts m c i s res
    (t.track_id, k) :: regenPairs m c i s (res ++ [k]) rest

def applyPairs (ps : List (Nat × String)) (ts : List Track) : List Track :=
  ps.foldl (fun ts p => updTrack ts p.1 (fun c => { c with virtual_key := p.2 })) ts

theorem regen_fold_eq_applyPairs (m c i s : String) :
    ∀ (l ts : List Track) (res : List String),
      (l.foldl (regenStep m c i s) (ts, res)).1 = applyPairs (regenPairs m c i s res l) ts := by
  intro l
  induction l with
  | nil => intro ts res; rfl
  | cons t rest ih =>
    intro ts res
    simp only [List.foldl_cons, regenStep, regenPairs, applyPairs, List.foldl_cons]
    exact ih _ _

theorem regenPairs_fst (m c i s : String) :
    ∀ (l : List Track) (res : List String),
      (regenPairs m c i s res l).map Prod.fst = l.map (fun t => t.track_id) := by
  intro l
  induction l with
  | nil => intro res; rfl
  | cons t rest ih => intro res; simp [regenPairs, ih]

theorem regenPairs_keys (m c i s : String) :
    ∀ (l : List Track) (res : List String),
      (∀ p ∈ regenPairs m c i s res l,
        p.2 ∉ res ∧ ∃ n, p.2 = vkPre m c i s ++ String.mk (pad3 n)) ∧
      ((regenPairs m c i s res l).map Prod.snd).Nodup := by
  intro l
  induction l with
  | nil =>
    intro res
    exact ⟨by intro p hp; simp [regenPairs] at hp, by simp [regenPairs]⟩
  | cons t rest ih =>
    intro res
    obtain ⟨ihmem, ihnd⟩ := ih (res ++ [generate_virtual_key_from_parts m c i s res])
    constructor
    · intro p hp
      simp only [regenPairs, List.mem_cons] at hp
      rcases hp with rfl | hp
      · exact ⟨generate_virtual_key_from_parts_fresh m c i s res,
          (generate_virtual_key_from_parts_shape m c i s res).imp (fun n hn => hn.1)⟩
      · have := ihmem p hp
        refine ⟨fun hc => this.1 (by simp [hc]), this.2⟩
    · simp only [regenPairs, List.map_cons, List.nodup_cons]
      refine ⟨?_, ihnd⟩
      intro hc
      simp only [List.mem_map] at hc
      obtain ⟨p, hp, hpk⟩ := hc
      exact (ihmem p hp).1 (by simp [hpk])

def lastKey (ps : List (Nat × String)) (id : Nat) : Option String :=
  (ps.reverse.find? (fun p => p.1 = id)).map (·.2)

theorem lastKey_cons (p : Nat × String) (ps : List (Nat × String)) (id : Nat) :
    lastKey (p :: ps) id =
      match lastKey ps id with
      | some k => some k
      | none => if p.1 = id then some p.2 else none := by
  simp only [lastKey, List.reverse_cons, List.find?_append]
  cases hf : (ps.reverse.find? (fun q => q.1 = id)) with
  | some q => simp [hf]
  | none =>
    by_cases hp : p.1 = id
    · simp [hf, List.find?, hp]
    · simp [hf, List.find?, hp]

theorem applyPairs_eq_map :
    ∀ (ps : List (Nat × String)) (ts : List Track),
      applyPairs ps ts = ts.map (fun t =>
        match lastKey ps t.track_id with
        | some k => { t with virtual_key := k }
        | none => t) := by
  intro ps
  induction ps with
  | nil =>
    intro ts
    simp only [applyPairs, List.foldl_nil, lastKey, List.reverse_nil, List.find?_nil,
      Option.map_none']
    simp
  | cons p rest ih =>
    intro ts
    simp only [applyPairs, List.foldl_cons]
    rw [show rest.foldl (fun ts p => updTrack ts p.1
        (fun c => { c with virtual_key := p.2 }))
        (updTrack ts p.1 (fun c => { c with virtual_key := p.2 })) =
      applyPairs rest (updTrack ts p.1 (fun c => { c with virtual_key := p.2 })) from rfl]
    rw [ih]
    simp only [updTrack, List.map_map]
    apply List.map_congr_left
    intro t _
    simp only [Function.comp]
    rw [lastKey_cons]
    by_cases ht : t.track_id = p.1
    · simp only [if_pos ht]
      have hid : ({ t with virtual_key := p.2 } : Track).track_id = t.track_id := rfl
      rw [hid]
      cases hl : lastKey rest t.track_id <;> simp [hl, ht]
    · simp only [if_neg ht]
      have ht2 : ¬ p.1 = t.track_id := fun hh => ht hh.symm
      cases hl : lastKey rest t.track_id <;> simp [hl, ht2]

theorem insertOrd_perm (x : Track) (l : List Track) : (insertOrd x l).Perm (x :: l) := by
  induction l with
  | nil => exact List.Perm.refl _
  | cons y ys ih =>
    simp only [insertOrd]
    by_cases h : mergeOrd x y = true
    · rw [if_pos h]
    · rw [if_neg h]
      exact (List.Perm.cons y ih).trans (List.Perm.swap x y ys)

theorem sortTracks_perm (l : List Track) : (sortTracks l).Perm l := by
  induction l with
  | nil => exact List.Perm.refl _
  | cons x xs ih =>
    simp only [sortTracks]
    exact (insertOrd_perm x (sortTracks xs)).trans (List.Perm.cons x ih)

theorem lastKey_mem {ps : List (Nat × String)} {id : Nat}
    (h : id ∈ ps.map Prod.fst) : ∃ k, lastKey ps id = some k ∧ (id, k) ∈ ps := by
  have hne : ps.reverse.find? (fun p => p.1 = id) ≠ none := by
    intro hnone
    rw [List.find?_eq_none] at hnone
    simp only [List.mem_map] at h
    obtain ⟨p, hp, hpi⟩ := h
    exact hnone p (List.mem_reverse.mpr hp) (by simp [hpi])
  cases hf : ps.reverse.find? (fun p => p.1 = id) with
  | none => exact absurd hf hne
  | some p =>
    have hmem := List.mem_of_find?_eq_some hf
    have hpi : p.1 = id := by simpa using List.find?_some hf
    refine ⟨p.2, by simp [lastKey, hf], ?_⟩
    have : p = (id, p.2) := by
      rw [← hpi]
    rw [← this]
    exact List.mem_reverse.mp hmem

theorem length_filter_orB {α : Type} (l : List α) (p q : α → Bool)
    (hd : ∀ x ∈ l, ¬(p x = true ∧ q x = true)) :
    (l.filter (fun x => p x || q x)).length = (l.filter p).length + (l.filter q).length := by
  induction l with
  | nil => simp
  | cons a as ih =>
    have ih' := ih (fun x hx => hd x (List.mem_cons_of_mem _ hx))
    have hda := hd a (List.mem_cons_self _ _)
    simp only [List.filter_cons]
    cases hp : p a <;> cases hq : q a
    · simp only [hp, hq, Bool.or_false, Bool.false_eq_true, if_false]
      exact ih'
    · simp only [hp, hq, Bool.false_or, if_true, Bool.false_eq_true, if_false,
        List.length_cons, ih']
      omega
    · simp only [hp, hq, Bool.or_false, if_true, Bool.false_eq_true, if_false,
        List.length_cons, ih']
      omega
    · exact absurd ⟨hp, hq⟩ hda

theorem mergeCore_spec (tracksA : List Track) (m c i s : String) (res0 : List String)
    (target : Nat) (hnd : (tracksA.map (fun t => t.track_id)).Nodup) :
    let out := (sortTracks (tracksA.filter (fun t => t.cluster_id = some target))).foldl
      (regenStep m c i s) (tracksA, res0)
    out.1.map (fun t => t.track_id) = tracksA.map (fun t => t.track_id) ∧
    (out.1.filter (fun t => t.cluster_id = some target)).length =
      (tracksA.filter (fun t => t.cluster_id = some target)).length ∧
    (∀ t ∈ out.1, t.cluster_id = some target →
      ∃ n, t.virtual_key = vkPre m c i s ++ String.mk (pad3 n)) ∧
    ((out.1.filter (fun t => t.cluster_id = some target)).map
      (fun t => t.virtual_key)).Nodup := by
  intro out
  have hout1 : out.1 = applyPairs
      (regenPairs m c i s res0 (sortTracks (tracksA.filter (fun t => t.cluster_id = some target))))
      tracksA := regen_fold_eq_applyPairs m c i s _ tracksA res0
  set l := sortTracks (tracksA.filter (fun t => t.cluster_id = some target)) with hl
  set ps := regenPairs m c i s res0 l with hps
  have hperm : l.Perm (tracksA.filter (fun t => t.cluster_id = some target)) := sortTracks_perm _
  have hfst : ps.map Prod.fst = l.map (fun t => t.track_id) := regenPairs_fst m c i s l res0
  obtain ⟨hkeys, hsnd⟩ := regenPairs_keys m c i s l res0
  have hmap : out.1 = tracksA.map (fun t =>
      match lastKey ps t.track_id with
      | some k => { t with virtual_key := k }
      | none => t) := by rw [hout1, applyPairs_eq_map]
  have hFid : ∀ t : Track, (match lastKey ps t.track_id with
      | some k => ({ t with virtual_key := k } : Track)
      | none => t).track_id = t.track_id := by
    intro t
    cases lastKey ps t.track_id <;> rfl
  have hFcl : ∀ t : Track, (match lastKey ps t.track_id with
      | some k => ({ t with virtual_key := k } : Track)
      | none => t).cluster_id = t.cluster_id := by
    intro t
    cases lastKey ps t.track_id <;> rfl
  have hfilter : out.1.filter (fun t => t.cluster_id = some target) =
      (tracksA.filter (fun t => t.cluster_id = some target)).map (fun t =>
        match lastKey ps t.track_id with
        | some k => { t with virtual_key := k }
        | none => t) := by
    rw [hmap, List.filter_map]
    congr 1
    apply List.filter_congr
    intro t _
    simp only [Function.comp]
    rw [hFcl t]
  have hkeyOf : ∀ t ∈ tracksA.filter (fun t => t.cluster_id = some target),
      ∃ k, lastKey ps t.track_id = some k ∧ (t.track_id, k) ∈ ps := by
    intro t ht
    apply lastKey_mem
    rw [hfst]
    exact List.mem_map_of_mem _ (hperm.mem_iff.mpr ht)
  refine ⟨?_, ?_, ?_, ?_⟩
  · rw [hmap, List.map_map]
    apply List.map_congr_left
    intro t _
    simp only [Function.comp]
    exact hFid t
  · rw [hfilter, List.length_map]
  · intro t ht htc
    rw [hmap] at ht
    simp only [List.mem_map] at ht
    obtain ⟨u, hu, hut⟩ := ht
    have hucl : u.cluster_id = some target := by
      rw [← hFcl u, hut]
      exact htc
    have humem : u ∈ tracksA.filter (fun t => t.cluster_id = some target) :=
      List.mem_filter.mpr ⟨hu, by simp [hucl]⟩
    obtain ⟨k, hk, hkmem⟩ := hkeyOf u humem
    obtain ⟨-, n, hn⟩ := hkeys (u.track_id, k) hkmem
    refine ⟨n, ?_⟩
    rw [← hut, hk]
    exact hn
  · rw [hfilter, List.map_map]
    have hndf : (tracksA.filter (fun t => t.cluster_id = some target)).Nodup := by
      apply List.Nodup.of_map (fun t => t.track_id)
      exact List.Nodup.sublist (List.Sublist.map _ (List.filter_sublist _)) hnd
    have hndfid : ((tracksA.filter (fun t => t.cluster_id = some target)).map
        (fun t => t.track_id)).Nodup :=
      List.Nodup.sublist (List.Sublist.map _ (List.filter_sublist _)) hnd
    apply List.Nodup.map_on ?_ hndf
    intro t1 h1 t2 h2 heq
    obtain ⟨k1, hk1, hm1⟩ := hkeyOf t1 h1
    obtain ⟨k2, hk2, hm2⟩ := hkeyOf t2 h2
    simp only [Function.comp, hk1, hk2] at heq
    have hkk : k1 = k2 := heq
    have hpeq : (t1.track_id, k1) = (t2.track_id, k2) :=
      List.inj_on_of_nodup_map hsnd hm1 hm2 (by simp [hkk])
    have hid : t1.track_id = t2.track_id := (Prod.mk.injEq _ _ _ _).mp hpeq |>.1
    exact List.inj_on_of_nodup_map hndfid h1 h2 hid

/-- C3: merging a nonempty source cluster into a nonempty target cluster
preserves the multiset of asset ids, makes the target hold exactly the union
of both clusters' assets, deletes the source cluster, reports the number of
moved assets, and regenerates the target's virtual keys so that all of them
share one component prefix with pairwise distinct (hence distinct-serial)
keys. Hypotheses are the data-model invariants of §3: unique track ids and
every asset's cluster existing. -/
theorem C3_cluster_merge (cat : Catalog) (gen : Nat) (now : String) (target source : Nat)
    (hw : WellClustered cat)
    (hnd : (cat.tracks.map (fun t => t.track_id)).Nodup)
    (hne : target ≠ source)
    (htc : ∃ c ∈ cat.clusters, c.cluster_id = target)
    (hsc : ∃ c ∈ cat.clusters, c.cluster_id = source)
    (hT : cat.tracks.filter (fun t => t.cluster_id = some target) ≠ [])
    (hS : cat.tracks.filter (fun t => t.cluster_id = some source) ≠ []) :
    ∃ cat', api_clusters_merge cat gen now target source =
        .ok (cat', (cat.tracks.filter (fun t => t.cluster_id = some source)).length) ∧
      cat'.tracks.map (fun t => t.track_id) = cat.tracks.map (fun t => t.track_id) ∧
      (cat'.tracks.filter (fun t => t.cluster_id = some target)).length =
        (cat.tracks.filter (fun t => t.cluster_id = some target)).length +
          (cat.tracks.filter (fun t => t.cluster_id = some source)).length ∧
      (∀ c ∈ cat'.clusters, c.cluster_id ≠ source) ∧
      (∃ mood ctx inst style, ∀ t ∈ cat'.tracks, t.cluster_id = some target →
        ∃ n, t.virtual_key = vkPre mood ctx inst style ++ String.mk (pad3 n)) ∧
      ((cat'.tracks.filter (fun t => t.cluster_id = some target)).map
        (fun t => t.virtual_key)).Nodup := by
  obtain ⟨he1, he2, he3, he4, he5⟩ := ensure_of_wellClustered cat gen now hw
  obtain ⟨template, ttail, hft⟩ :
      ∃ a l', cat.tracks.filter (fun t => t.cluster_id = some target) = a :: l' := by
    cases h : cat.tracks.filter (fun t => t.cluster_id = some target) with
    | nil => exact absurd h hT
    | cons a l' => exact ⟨a, l', rfl⟩
  obtain ⟨s0, stail, hfs⟩ :
      ∃ a l', cat.tracks.filter (fun t => t.cluster_id = some source) = a :: l' := by
    cases h : cat.tracks.filter (fun t => t.cluster_id = some source) with
    | nil => exact absurd h hS
    | cons a l' => exact ⟨a, l', rfl⟩
  have hfindt : cat.clusters.find? (fun c => c.cluster_id = target) ≠ none := by
    intro hnone
    rw [List.find?_eq_none] at hnone
    obtain ⟨c, hc, hcc⟩ := htc
    exact hnone c hc (by simp [hcc])
  have hfinds : cat.clusters.find? (fun c => c.cluster_id = source) ≠ none := by
    intro hnone
    rw [List.find?_eq_none] at hnone
    obtain ⟨c, hc, hcc⟩ := hsc
    exact hnone c hc (by simp [hcc])
  simp only [api_clusters_merge, if_neg hne, he1, he2]
  rw [if_neg (by
    intro h
    rcases h with h | h
    · exact hfindt (Option.isNone_iff_eq_none.mp h)
    · exact hfinds (Option.isNone_iff_eq_none.mp h))]
  rw [hft, hfs]
  have hA_id : (cat.tracks.map (moveTrack template target source)).map (fun t => t.track_id) =
      cat.tracks.map (fun t => t.track_id) := by
    rw [List.map_map]
    apply List.map_congr_left
    intro t _
    simp only [Function.comp, moveTrack]
    by_cases h : t.cluster_id = some source <;> simp [h]
  have hA_nodup : ((cat.tracks.map (moveTrack template target source)).map
      (fun t => t.track_id)).Nodup := by rw [hA_id]; exact hnd
  obtain ⟨hm1, hm2, hm3, hm4⟩ := mergeCore_spec
    (cat.tracks.map (moveTrack template target source))
    (pickIdentity template "moods") (pickIdentity template "usable_in_contexts")
    (pickIdentity template "instruments") (pickIdentity template "styles")
    (List.map (fun x => x.virtual_key)
      (List.filter (fun x => decide (x.virtual_key ≠ "" ∧ ¬ x.cluster_id = some target))
        (cat.tracks.map (moveTrack template target source))))
    target hA_nodup
  have hAfilt : ((cat.tracks.map (moveTrack template target source)).filter
      (fun t => t.cluster_id = some target)).length =
      (template :: ttail).length + (s0 :: stail).length := by
    rw [List.filter_map, List.length_map]
    rw [List.filter_congr (q := fun t =>
      decide (t.cluster_id = some target) || decide (t.cluster_id = some source)) ?_]
    · rw [length_filter_orB cat.tracks _ _ ?_]
      · rw [← hft, ← hfs]
      · intro t _ hboth
        simp only [decide_eq_true_eq] at hboth
        rw [hboth.1] at hboth
        exact hne (Option.some_inj.mp hboth.2.symm).symm
    · intro t _
      simp only [Function.comp, moveTrack]
      by_cases h : t.cluster_id = some source
      · have hst : ¬ (source = target) := fun hc => hne hc.symm
        simp [h, hst]
      · simp [h]
  refine ⟨_, rfl, ?_, ?_, ?_, ?_, ?_⟩
  · exact hm1.trans hA_id
  · exact hm2.trans hAfilt
  · intro c hc
    have := List.of_mem_filter hc
    simpa using this
  · exact ⟨pickIdentity template "moods", pickIdentity template "usable_in_contexts",
      pickIdentity template "instruments", pickIdentity template "styles", hm3⟩
  · exact hm4

/-- A two-cluster catalog used to instantiate the merge theorems. -/
def c3Cat : Catalog :=
  { clusters := [{ cluster_id := 100, name := "a" }, { cluster_id := 101, name := "b" }],
    tracks :=
      [{ track_id := 1, cluster_id := some 100, original_path := "a.mp3", file_format := "mp3",
         fingerprint := { sha1 := "A", file_size := 1, modified_time := 0 }, virtual_key := "a" },
       { track_id := 2, cluster_id := some 101, original_path := "b.mp3", file_format := "mp3",
         fingerprint := { sha1 := "B", file_size := 1, modified_time := 0 }, virtual_key := "b" }] }

theorem C3_cluster_merge_witness :
    ∃ cat', api_clusters_merge c3Cat 1000 "t" 100 101 =
        .ok (cat', (c3Cat.tracks.filter (fun t => t.cluster_id = some 101)).length) ∧
      cat'.tracks.map (fun t => t.track_id) = c3Cat.tracks.map (fun t => t.track_id) ∧
      (cat'.tracks.filter (fun t => t.cluster_id = some 100)).length =
        (c3Cat.tracks.filter (fun t => t.cluster_id = some 100)).length +
          (c3Cat.tracks.filter (fun t => t.cluster_id = some 101)).length ∧
      (∀ c ∈ cat'.clusters, c.cluster_id ≠ 101) ∧
      (∃ mood ctx inst style, ∀ t ∈ cat'.tracks, t.cluster_id = some 100 →
        ∃ n, t.virtual_key = vkPre mood ctx inst style ++ String.mk (pad3 n)) ∧
      ((cat'.tracks.filter (fun t => t.cluster_id = some 100)).map
        (fun t => t.virtual_key)).Nodup :=
  C3_cluster_merge c3Cat 1000 "t" 100 101
    (by
      intro t ht
      simp only [c3Cat, List.mem_cons, List.not_mem_nil, or_false] at ht
      rcases ht with rfl | rfl
      · exact ⟨100, rfl, { cluster_id := 100, name := "a", created_at := "" },
          by simp [c3Cat], rfl⟩
      · exact ⟨101, rfl, { cluster_id := 101, name := "b", created_at := "" },
          by simp [c3Cat], rfl⟩)
    (by decide) (by decide)
    (⟨{ cluster_id := 100, name := "a", created_at := "" }, by simp [c3Cat], rfl⟩)
    (⟨{ cluster_id := 101, name := "b", created_at := "" }, by simp [c3Cat], rfl⟩)
    (by decide) (by decide)

/-! ## Claim C2: virtual-key uniqueness -/

theorem string_ne_empty_of_data_ne {s : String} (h : s.data ≠ []) : s ≠ "" := by
  intro hc
  rw [hc] at h
  exact h rfl

theorem generate_virtual_key_from_parts_ne_empty (m c i s : String) (existing : List String) :
    generate_virtual_key_from_parts m c i s existing ≠ "" := by
  apply string_ne_empty_of_data_ne
  show (vkPre m c i s ++ String.mk (pad3 _)).data ≠ []
  rw [string_append_data]
  intro h
  exact pad3_ne_nil _ (List.append_eq_nil.mp h).2

theorem sanitizeStem_ne_empty (s : String) : sanitizeStem s ≠ "" := by
  simp only [sanitizeStem]
  split
  · decide
  · apply string_ne_empty_of_data_ne
    simpa using by assumption

theorem fnKey_ne_empty (base : String) (i : Nat) : fnKey base i ≠ "" := by
  apply string_ne_empty_of_data_ne
  simp only [fnKey, string_append_data]
  intro h
  have := (List.append_eq_nil.mp h).2
  exact printNat_ne_nil i (by simpa [natStr] using this)

theorem ffnAux_ne_empty (base : String) (existing : List String) :
    ∀ fuel i, ffnAux base existing fuel i ≠ "" := by
  intro fuel
  induction fuel with
  | zero => intro i; exact fnKey_ne_empty base i
  | succ f ih =>
    intro i
    simp only [ffnAux]
    split
    · exact ih (i + 1)
    · exact fnKey_ne_empty base i

theorem generate_virtual_key_from_filename_ne_empty (stem : String) (existing : List String) :
    generate_virtual_key_from_filename stem existing ≠ "" := by
  simp only [generate_virtual_key_from_filename]
  split
  · exact ffnAux_ne_empty _ _ _ _
  · exact sanitizeStem_ne_empty stem

/-- The key-uniqueness invariant carried through the reconciliation loop:
the tracks' virtual keys are pairwise distinct, and every nonempty key is
registered in the in-use set. -/
def KeysOK (ts : List Track) (keys : List String) : Prop :=
  (ts.map (fun t => t.virtual_key)).Nodup ∧
  ∀ k ∈ ts.map (fun t => t.virtual_key), k ≠ "" → k ∈ keys

theorem keysOK_updTrack {ts : List Track} {keys : List String} (h : KeysOK ts keys)
    (id : Nat) (f : Track → Track) (hf : ∀ t, (f t).virtual_key = t.virtual_key) :
    KeysOK (updTrack ts id f) keys := by
  have hmap : (updTrack ts id f).map (fun t => t.virtual_key) =
      ts.map (fun t => t.virtual_key) := updTrack_map_general ts id f _ hf
  exact ⟨hmap ▸ h.1, hmap ▸ h.2⟩

theorem nodup_append_singleton {α : Type} {l : List α} {a : α} (hnd : l.Nodup) (ha : a ∉ l) :
    (l ++ [a]).Nodup := by
  rw [List.nodup_append]
  exact ⟨hnd, List.nodup_singleton a, by simpa using fun hc => ha hc⟩

theorem keysOK_append {ts : List Track} {keys : List String} (h : KeysOK ts keys)
    (t : Track) (hne : t.virtual_key ≠ "") (hnot : t.virtual_key ∉ keys) :
    KeysOK (ts ++ [t]) (keys ++ [t.virtual_key]) := by
  constructor
  · rw [List.map_append]
    apply nodup_append_singleton h.1
    intro hc
    exact hnot (h.2 _ hc hne)
  · intro k hk hkne
    rw [List.map_append, List.mem_append] at hk
    rcases hk with hk | hk
    · exact List.mem_append_left _ (h.2 k hk hkne)
    · simp only [List.map_cons, List.map_nil, List.mem_singleton] at hk
      rw [hk]
      exact List.mem_append_right _ (List.mem_singleton.mpr rfl)

theorem keysOK_createTrack (voc : Vocab) (initVK : Bool) (now : String) (st : SyncState)
    (r : Disc) (dupOf : Option Nat) (h : KeysOK st.tracks st.existing_keys) :
    KeysOK (createTrack voc initVK now st r dupOf).tracks
      (createTrack voc initVK now st r dupOf).existing_keys := by
  simp only [createTrack]
  split
  all_goals
    apply keysOK_append h
  · exact generate_virtual_key_from_filename_ne_empty _ _
  · exact generate_virtual_key_from_filename_fresh _ _
  · exact generate_virtual_key_from_parts_ne_empty _ _ _ _ _
  · exact generate_virtual_key_from_parts_fresh _ _ _ _ _

theorem keysOK_processRecord (dE : String → Bool) (initVK : Bool) (voc : Vocab)
    (mnp : List ((String × String) × List Nat)) (now : String) (st : SyncState) (r : Disc)
    (h : KeysOK st.tracks st.existing_keys) :
    KeysOK (processRecord dE initVK voc mnp now st r).tracks
      (processRecord dE initVK voc mnp now st r).existing_keys := by
  simp only [processRecord]
  split
  · -- no canonical asset for this hash
    split
    · -- no track at this path: try the fallback relink
      split
      · -- an unambiguous candidate exists
        split
        · -- relink it in place: keys untouched, key list unchanged
          simp only [fallbackRelink]
          exact keysOK_updTrack h _ _ (fun t => rfl)
        · exact keysOK_createTrack _ _ _ _ _ _ h
      · exact keysOK_createTrack _ _ _ _ _ _ h
    · exact keysOK_createTrack _ _ _ _ _ _ h
  · -- a canonical asset exists
    rename_i canon heq
    have h' := keysOK_updTrack h canon.track_id
      (fun c => { c with missing_file := false }) (fun t => rfl)
    split
    · split
      · exact keysOK_updTrack h' _ _ (fun t => rfl)
      · exact h'
    · split
      · exact keysOK_updTrack h' _ _ (fun t => rfl)
      · split
        · exact keysOK_updTrack h' _ _ (fun t => rfl)
        · exact keysOK_createTrack _ _ _ _ _ _ h'

theorem backfillTrack_vk (voc : Vocab) (al : List (String × String)) (t : Track) :
    (backfillTrack voc al t).virtual_key = t.virtual_key := rfl

theorem postTrack_vk (voc : Vocab) (al : List (String × String)) (t : Track) :
    (postTrack voc al t).virtual_key = t.virtual_key := rfl

theorem eccFold_map_vk (now : String) :
    ∀ (l ts : List Track) (cs : List Cluster) (g : Nat),
      ((l.foldl (eccStep now) (ts, cs, g)).1).map (fun t => t.virtual_key) =
        ts.map (fun t => t.virtual_key) ++ l.map (fun t => t.virtual_key) := by
  intro l
  induction l with
  | nil => intro ts cs g; simp
  | cons t rest ih =>
    intro ts cs g
    simp only [List.foldl_cons, eccStep]
    split
    · split
      · rw [ih]
        simp
      · rw [ih]
        simp
    · rw [ih]
      simp

theorem ensure_map_vk (cat : Catalog) (gen : Nat) (now : String) :
    (ensure_catalog_clusters cat gen now).1.tracks.map (fun t => t.virtual_key) =
      cat.tracks.map (fun t => t.virtual_key) := by
  simp only [ensure_catalog_clusters]
  rw [eccFold_map_vk]
  simp

theorem keySet_go :
    ∀ (l : List Track) (acc : List String),
      l.foldl (fun s t => if t.virtual_key = "" then s else s ++ [t.virtual_key]) acc =
        acc ++ (l.filter (fun t => ¬ t.virtual_key = "")).map (fun t => t.virtual_key) := by
  intro l
  induction l with
  | nil => intro acc; simp
  | cons t rest ih =>
    intro acc
    simp only [List.foldl_cons, List.filter_cons]
    by_cases hv : t.virtual_key = ""
    · rw [if_pos hv]
      have : (decide ¬t.virtual_key = "") = false := by simp [hv]
      rw [this]
      simp only [Bool.false_eq_true, if_false]
      exact ih acc
    · rw [if_neg hv]
      have : (decide ¬t.virtual_key = "") = true := by simp [hv]
      rw [this]
      simp only [if_true, List.map_cons]
      rw [ih (acc ++ [t.virtual_key])]
      simp

theorem keySet_mem {ts : List Track} {t : Track} (ht : t ∈ ts) (hv : t.virtual_key ≠ "") :
    t.virtual_key ∈ keySet ts := by
  rw [keySet, keySet_go]
  simp only [List.nil_append, List.mem_map]
  exact ⟨t, List.mem_filter.mpr ⟨ht, by simp [hv]⟩, rfl⟩

theorem foldl_keysOK (dE : String → Bool) (initVK : Bool) (voc : Vocab)
    (mnp : List ((String × String) × List Nat)) (now : String) :
    ∀ (D : List Disc) (st : SyncState), KeysOK st.tracks st.existing_keys →
      KeysOK ((D.foldl (processRecord dE initVK voc mnp now) st)).tracks
        ((D.foldl (processRecord dE initVK voc mnp now) st)).existing_keys := by
  intro D
  induction D with
  | nil => intro st h; exact h
  | cons r rest ih =>
    intro st h
    simp only [List.foldl_cons]
    exact ih _ (keysOK_processRecord dE initVK voc mnp now st r h)

/-- Reconciliation preserves pairwise-distinct virtual keys. -/
theorem scan_vk_nodup (dE : String → Bool) (D : List Disc) (initVK : Bool)
    (cat : Catalog) (gen : Nat) (now : String)
    (hnd : (cat.tracks.map (fun t => t.virtual_key)).Nodup) :
    ((scan_and_sync dE D initVK cat gen now).1.tracks.map (fun t => t.virtual_key)).Nodup := by
  simp only [scan_and_sync]
  set cat1 := (ensure_catalog_clusters cat gen now).1 with hcat1
  have hvk1 : cat1.tracks.map (fun t => t.virtual_key) =
      cat.tracks.map (fun t => t.virtual_key) := ensure_map_vk cat gen now
  have hvk2 : (cat1.tracks.map (backfillTrack cat1.vocab cat1.aliases)).map
      (fun t => t.virtual_key) = cat1.tracks.map (fun t => t.virtual_key) := by
    rw [List.map_map]
    apply List.map_congr_left
    intro t _
    exact backfillTrack_vk _ _ t
  have hvk3 : ((cat1.tracks.map (backfillTrack cat1.vocab cat1.aliases)).map
      (fun t => { t with missing_file := true })).map (fun t => t.virtual_key) =
      (cat1.tracks.map (backfillTrack cat1.vocab cat1.aliases)).map
        (fun t => t.virtual_key) := by
    rw [List.map_map]
    apply List.map_congr_left
    intro t _
    rfl
  have h0 : KeysOK ((cat1.tracks.map (backfillTrack cat1.vocab cat1.aliases)).map
      (fun t => { t with missing_file := true })) (keySet cat1.tracks) := by
    constructor
    · rw [hvk3, hvk2, hvk1]
      exact hnd
    · intro k hk hkne
      rw [hvk3, hvk2] at hk
      simp only [List.mem_map] at hk
      obtain ⟨t, ht, rfl⟩ := hk
      exact keySet_mem ht hkne
  have hfold := foldl_keysOK dE initVK cat1.vocab
    (buildMnp dE (cat1.tracks.map (backfillTrack cat1.vocab cat1.aliases))) now D
    { tracks := (cat1.tracks.map (backfillTrack cat1.vocab cat1.aliases)).map
        (fun t => { t with missing_file := true }),
      clusters := cat1.clusters, existing_keys := keySet cat1.tracks,
      canonical_by_sha1 := canonMap cat1.tracks, track_by_relpath := relMap cat1.tracks,
      used_name_relinks := [], summary := {},
      gen := (ensure_catalog_clusters cat gen now).2 } h0
  have hpost : ∀ (ts : List Track), (ts.map (postTrack cat1.vocab cat1.aliases)).map
      (fun t => t.virtual_key) = ts.map (fun t => t.virtual_key) := by
    intro ts
    rw [List.map_map]
    apply List.map_congr_left
    intro t _
    exact postTrack_vk _ _ t
  rw [hpost]
  exact hfold.1

theorem lastKey_some_mem {ps : List (Nat × String)} {id : Nat} {k : String}
    (h : lastKey ps id = some k) : (id, k) ∈ ps := by
  simp only [lastKey] at h
  cases hf : ps.reverse.find? (fun p => p.1 = id) with
  | none => rw [hf] at h; exact Option.noConfusion h
  | some p =>
    rw [hf] at h
    simp only [Option.map_some', Option.some_inj] at h
    have hmem := List.mem_of_find?_eq_some hf
    have hpi : p.1 = id := by simpa using List.find?_some hf
    have : p = (id, k) := by
      rw [← hpi, ← h]
    rw [← this]
    exact List.mem_reverse.mp hmem

theorem vkPre_pad_ne_empty (m c i s : String) (n : Nat) :
    vkPre m c i s ++ String.mk (pad3 n) ≠ "" := by
  apply string_ne_empty_of_data_ne
  rw [string_append_data]
  intro h
  exact pad3_ne_nil n (List.append_eq_nil.mp h).2

/-- After the merge's key regeneration, ALL tracks still have pairwise
distinct virtual keys: outside tracks keep their old (distinct) keys, which
are reserved, and regenerated keys are fresh against both. -/
theorem merge_vk_nodup (tracksA : List Track) (m c i s : String) (target : Nat)
    (hndid : (tracksA.map (fun t => t.track_id)).Nodup)
    (hndvk : (tracksA.map (fun t => t.virtual_key)).Nodup) :
    (((sortTracks (tracksA.filter (fun t => t.cluster_id = some target))).foldl
        (regenStep m c i s)
        (tracksA, (tracksA.filter (fun x =>
          x.virtual_key ≠ "" ∧ ¬ x.cluster_id = some target)).map
            (fun x => x.virtual_key))).1.map (fun t => t.virtual_key)).Nodup := by
  set res0 := (tracksA.filter (fun x =>
    x.virtual_key ≠ "" ∧ ¬ x.cluster_id = some target)).map (fun x => x.virtual_key) with hres0
  set l := sortTracks (tracksA.filter (fun t => t.cluster_id = some target)) with hl
  set ps := regenPairs m c i s res0 l with hps
  have hperm : l.Perm (tracksA.filter (fun t => t.cluster_id = some target)) := sortTracks_perm _
  have hfst : ps.map Prod.fst = l.map (fun t => t.track_id) := regenPairs_fst m c i s l res0
  obtain ⟨hkeys, hsnd⟩ := regenPairs_keys m c i s l res0
  have hmap : ((l.foldl (regenStep m c i s) (tracksA, res0)).1) = tracksA.map (fun t =>
      match lastKey ps t.track_id with
      | some k => { t with virtual_key := k }
      | none => t) := by
    rw [regen_fold_eq_applyPairs, applyPairs_eq_map]
  rw [hmap, List.map_map]
  have hndA : tracksA.Nodup := List.Nodup.of_map _ hndid
  apply List.Nodup.map_on ?_ hndA
  intro t1 h1 t2 h2 heq
  simp only [Function.comp] at heq
  -- helper: a track whose id is not paired keeps its key and is outside the target
  have houtside : ∀ t ∈ tracksA, lastKey ps t.track_id = none →
      t.virtual_key ≠ "" → t.virtual_key ∈ res0 := by
    intro t ht hnone hne
    have hnot : ¬ t.cluster_id = some target := by
      intro hc
      have htf : t ∈ tracksA.filter (fun t => t.cluster_id = some target) :=
        List.mem_filter.mpr ⟨ht, by simp [hc]⟩
      have hid : t.track_id ∈ ps.map Prod.fst := by
        rw [hfst]
        exact List.mem_map_of_mem _ (hperm.mem_iff.mpr htf)
      obtain ⟨k, hk, -⟩ := lastKey_mem hid
      rw [hk] at hnone
      exact Option.noConfusion hnone
    rw [hres0]
    exact List.mem_map_of_mem _ (List.mem_filter.mpr ⟨ht, by simp [hne, hnot]⟩)
  cases hk1 : lastKey ps t1.track_id with
  | some k1 =>
    cases hk2 : lastKey ps t2.track_id with
    | some k2 =>
      rw [hk1, hk2] at heq
      have hkk : k1 = k2 := heq
      have hpeq : (t1.track_id, k1) = (t2.track_id, k2) :=
        List.inj_on_of_nodup_map hsnd (lastKey_some_mem hk1) (lastKey_some_mem hk2)
          (by simp [hkk])
      have hid : t1.track_id = t2.track_id := (Prod.mk.injEq _ _ _ _).mp hpeq |>.1
      exact List.inj_on_of_nodup_map hndid h1 h2 hid
    | none =>
      rw [hk1, hk2] at heq
      obtain ⟨hk1not, n1, hn1⟩ := hkeys _ (lastKey_some_mem hk1)
      dsimp only at hk1not hn1
      have heq' : k1 = t2.virtual_key := heq
      have ht2ne : t2.virtual_key ≠ "" := by
        rw [← heq', hn1]
        exact vkPre_pad_ne_empty m c i s n1
      exact absurd (heq' ▸ houtside t2 h2 hk2 ht2ne) hk1not
  | none =>
    cases hk2 : lastKey ps t2.track_id with
    | some k2 =>
      rw [hk1, hk2] at heq
      obtain ⟨hk2not, n2, hn2⟩ := hkeys _ (lastKey_some_mem hk2)
      dsimp only at hk2not hn2
      have heq' : t1.virtual_key = k2 := heq
      have ht1ne : t1.virtual_key ≠ "" := by
        rw [heq', hn2]
        exact vkPre_pad_ne_empty m c i s n2
      exact absurd (heq' ▸ houtside t1 h1 hk1 ht1ne) hk2not
    | none =>
      rw [hk1, hk2] at heq
      exact List.inj_on_of_nodup_map hndvk h1 h2 heq

theorem eccFold_map_id (now : String) :
    ∀ (l ts : List Track) (cs : List Cluster) (g : Nat),
      ((l.foldl (eccStep now) (ts, cs, g)).1).map (fun t => t.track_id) =
        ts.map (fun t => t.track_id) ++ l.map (fun t => t.track_id) := by
  intro l
  induction l with
  | nil => intro ts cs g; simp
  | cons t rest ih =>
    intro ts cs g
    simp only [List.foldl_cons, eccStep]
    split
    · split
      · rw [ih]
        simp
      · rw [ih]
        simp
    · rw [ih]
      simp

theorem ensure_map_id (cat : Catalog) (gen : Nat) (now : String) :
    (ensure_catalog_clusters cat gen now).1.tracks.map (fun t => t.track_id) =
      cat.tracks.map (fun t => t.track_id) := by
  simp only [ensure_catalog_clusters]
  rw [eccFold_map_id]
  simp

/-- Any successful cluster merge preserves pairwise-distinct virtual keys. -/
theorem merge_preserves_vk_nodup (cat : Catalog) (gen : Nat) (now : String)
    (target source : Nat) (cat' : Catalog) (moved : Nat)
    (hndid : (cat.tracks.map (fun t => t.track_id)).Nodup)
    (hndvk : (cat.tracks.map (fun t => t.virtual_key)).Nodup)
    (hok : api_clusters_merge cat gen now target source = .ok (cat', moved)) :
    (cat'.tracks.map (fun t => t.virtual_key)).Nodup := by
  have hid1 : (ensure_catalog_clusters cat gen now).1.tracks.map (fun t => t.track_id) =
      cat.tracks.map (fun t => t.track_id) := ensure_map_id cat gen now
  have hvk1 : (ensure_catalog_clusters cat gen now).1.tracks.map (fun t => t.virtual_key) =
      cat.tracks.map (fun t => t.virtual_key) := ensure_map_vk cat gen now
  simp only [api_clusters_merge] at hok
  by_cases h1 : target = source
  · rw [if_pos h1] at hok
    exact Except.noConfusion hok
  rw [if_neg h1] at hok
  split at hok
  · exact Except.noConfusion hok
  split at hok
  · exact Except.noConfusion hok
  · -- source cluster empty: tracks unchanged
    simp only [Except.ok.injEq, Prod.mk.injEq] at hok
    rw [← hok.1]
    exact hvk1 ▸ hndvk
  · -- main merge path
    rename_i template ttail s0 stail hft hfs
    simp only [Except.ok.injEq, Prod.mk.injEq] at hok
    rw [← hok.1]
    have hmid : ((ensure_catalog_clusters cat gen now).1.tracks.map
        (moveTrack template target source)).map (fun t => t.track_id) =
        cat.tracks.map (fun t => t.track_id) := by
      rw [List.map_map, ← hid1]
      apply List.map_congr_left
      intro t _
      simp only [Function.comp, moveTrack]
      by_cases h : t.cluster_id = some source <;> simp [h]
    have hmvk : ((ensure_catalog_clusters cat gen now).1.tracks.map
        (moveTrack template target source)).map (fun t => t.virtual_key) =
        cat.tracks.map (fun t => t.virtual_key) := by
      rw [List.map_map, ← hvk1]
      apply List.map_congr_left
      intro t _
      simp only [Function.comp, moveTrack]
      by_cases h : t.cluster_id = some source <;> simp [h]
    exact merge_vk_nodup _ _ _ _ _ target (hmid ▸ hndid) (hmvk ▸ hndvk)

/-- C2: virtual-key uniqueness is an invariant. Both key generators never
return a key already in the supplied in-use set; a reconciliation pass
preserves pairwise-distinct virtual keys; and any successful cluster merge
preserves pairwise-distinct virtual keys (for the merge, unique track ids —
a §3 data-model invariant — are also assumed). -/
theorem C2_virtual_key_uniqueness :
    (∀ (mood context instrument style : String) (existing : List String),
      generate_virtual_key_from_parts mood context instrument style existing ∉ existing) ∧
    (∀ (stem : String) (existing : List String),
      generate_virtual_key_from_filename stem existing ∉ existing) ∧
    (∀ (dE : String → Bool) (D : List Disc) (initVK : Bool) (cat : Catalog) (gen : Nat)
      (now : String), (cat.tracks.map (fun t => t.virtual_key)).Nodup →
      ((scan_and_sync dE D initVK cat gen now).1.tracks.map (fun t => t.virtual_key)).Nodup) ∧
    (∀ (cat : Catalog) (gen : Nat) (now : String) (target source : Nat) (cat' : Catalog)
      (moved : Nat), (cat.tracks.map (fun t => t.track_id)).Nodup →
      (cat.tracks.map (fun t => t.virtual_key)).Nodup →
      api_clusters_merge cat gen now target source = .ok (cat', moved) →
      (cat'.tracks.map (fun t => t.virtual_key)).Nodup) :=
  ⟨generate_virtual_key_from_parts_fresh, generate_virtual_key_from_filename_fresh,
    scan_vk_nodup, merge_preserves_vk_nodup⟩

theorem C2_virtual_key_uniqueness_witness :
    (generate_virtual_key_from_parts "calm" "town" "piano" "lofi"
      ["calm_town_piano_lofi_001"] ∉ ["calm_town_piano_lofi_001"]) ∧
    ((scan_and_sync c1DE c1Disc false c3Cat 50 "t").1.tracks.map
      (fun t => t.virtual_key)).Nodup :=
  ⟨C2_virtual_key_uniqueness.1 "calm" "town" "piano" "lofi" ["calm_town_piano_lofi_001"],
    C2_virtual_key_uniqueness.2.2.1 c1DE c1Disc false c3Cat 50 "t" (by decide)⟩

/-! ## Lookup-map specifications (shared by C4, C5, C10) -/

theorem alookup_aset_cases {α : Type} (m : List (String × α)) (k p : String) (v : α) :
    alookup (aset m k v) p = if k = p then some v else alookup m p := by
  by_cases h : k = p
  · rw [if_pos h, ← h]
    exact alookup_aset_self m k v
  · rw [if_neg h]
    exact alookup_aset_ne m k p v h

theorem relMap_go_lookup :
    ∀ (l : List Track) (acc : List (String × Nat)) (p : String) (id : Nat),
      alookup (l.foldl (fun m t =>
        if t.original_path = "" then m else aset m t.original_path t.track_id) acc) p =
          some id →
        alookup acc p = some id ∨ ∃ t ∈ l, t.track_id = id ∧ t.original_path = p := by
  intro l
  induction l with
  | nil => intro acc p id h; exact Or.inl h
  | cons t rest ih =>
    intro acc p id h
    simp only [List.foldl_cons] at h
    by_cases hp : t.original_path = ""
    · rw [if_pos hp] at h
      rcases ih acc p id h with h' | ⟨u, hu, h1, h2⟩
      · exact Or.inl h'
      · exact Or.inr ⟨u, List.mem_cons_of_mem _ hu, h1, h2⟩
    · rw [if_neg hp] at h
      rcases ih _ p id h with h' | ⟨u, hu, h1, h2⟩
      · rw [alookup_aset_cases] at h'
        by_cases hq : t.original_path = p
        · rw [if_pos hq] at h'
          exact Or.inr ⟨t, List.mem_cons_self _ _, Option.some_inj.mp h', hq⟩
        · rw [if_neg hq] at h'
          exact Or.inl h'
      · exact Or.inr ⟨u, List.mem_cons_of_mem _ hu, h1, h2⟩

theorem relMap_lookup_mem {ts : List Track} {p : String} {id : Nat}
    (h : alookup (relMap ts) p = some id) :
    ∃ t ∈ ts, t.track_id = id ∧ t.original_path = p := by
  rcases relMap_go_lookup ts [] p id h with h' | h'
  · exact Option.noConfusion h'
  · exact h'

theorem canonMap_go_lookup :
    ∀ (l : List Track) (acc : List (String × Nat)) (s : String) (id : Nat),
      alookup (l.foldl (fun m t =>
        if t.fingerprint.sha1 ≠ "" ∧ t.duplicate_of = none ∧
            (alookup m t.fingerprint.sha1).isNone
        then m ++ [(t.fingerprint.sha1, t.track_id)] else m) acc) s = some id →
      alookup acc s = some id ∨ ∃ t ∈ l, t.track_id = id ∧ t.fingerprint.sha1 = s ∧
        t.duplicate_of = none := by
  intro l
  induction l with
  | nil => intro acc s id h; exact Or.inl h
  | cons t rest ih =>
    intro acc s id h
    simp only [List.foldl_cons] at h
    split at h
    · rcases ih _ s id h with h' | ⟨u, hu, h1, h2, h3⟩
      · simp only [alookup] at h'
        rw [List.find?_append] at h'
        cases hf : acc.find? (fun q => q.1 = s) with
        | some q =>
          rw [hf] at h'
          exact Or.inl (by simp [alookup, hf, h'] at h' ⊢; exact h')
        | none =>
          rw [hf] at h'
          simp only [Option.none_or] at h'
          by_cases hq : t.fingerprint.sha1 = s
          · rename_i hcond
            refine Or.inr ⟨t, List.mem_cons_self _ _, ?_, hq, hcond.2.1⟩
            simp [List.find?, hq] at h'
            exact h'
          · simp [List.find?, hq] at h'
      · exact Or.inr ⟨u, List.mem_cons_of_mem _ hu, h1, h2, h3⟩
    · rcases ih _ s id h with h' | ⟨u, hu, h1, h2, h3⟩
      · exact Or.inl h'
      · exact Or.inr ⟨u, List.mem_cons_of_mem _ hu, h1, h2, h3⟩

theorem canonMap_lookup_mem {ts : List Track} {s : String} {id : Nat}
    (h : alookup (canonMap ts) s = some id) :
    ∃ t ∈ ts, t.track_id = id ∧ t.fingerprint.sha1 = s ∧ t.duplicate_of = none := by
  rcases canonMap_go_lookup ts [] s id h with h' | h'
  · exact Option.noConfusion h'
  · exact h'

theorem getTrack_cons (a : Track) (rest : List Track) (id : Nat) :
    getTrack (a :: rest) id = if a.track_id = id then some a else getTrack rest id := by
  simp only [getTrack, List.find?_cons]
  by_cases h : a.track_id = id
  · simp [h]
  · simp [h]

theorem getTrack_unique {ts : List Track} {id : Nat} {t u : Track}
    (hnd : (ts.map (fun t => t.track_id)).Nodup)
    (hg : getTrack ts id = some t) (hu : u ∈ ts) (hid : u.track_id = id) : u = t := by
  induction ts with
  | nil => exact absurd hu (List.not_mem_nil u)
  | cons a rest ih =>
    simp only [List.map_cons, List.nodup_cons] at hnd
    rw [getTrack_cons] at hg
    rcases List.mem_cons.mp hu with rfl | hmem
    · rw [if_pos hid] at hg
      exact Option.some_inj.mp hg
    · by_cases ha : a.track_id = id
      · exact absurd (ha ▸ hid ▸ List.mem_map_of_mem (fun t => t.track_id) hmem) hnd.1
      · rw [if_neg ha] at hg
        exact ih hnd.2 hg hmem

theorem getTrack_of_mem_nodup {ts : List Track} {t : Track}
    (hnd : (ts.map (fun t => t.track_id)).Nodup) (ht : t ∈ ts) :
    getTrack ts t.track_id = some t := by
  induction ts with
  | nil => exact absurd ht (List.not_mem_nil t)
  | cons a rest ih =>
    simp only [List.map_cons, List.nodup_cons] at hnd
    rw [getTrack_cons]
    rcases List.mem_cons.mp ht with rfl | hmem
    · rw [if_pos rfl]
    · by_cases ha : a.track_id = t.track_id
      · exact absurd (ha ▸ List.mem_map_of_mem (fun t => t.track_id) hmem) hnd.1
      · rw [if_neg ha]
        exact ih hnd.2 hmem

theorem getTrack_map {ts : List Track} (f : Track → Track)
    (hf : ∀ u, (f u).track_id = u.track_id) (id : Nat) :
    getTrack (ts.map f) id = (getTrack ts id).map f := by
  simp only [getTrack, List.find?_map]
  have hfun : ((fun t => decide (t.track_id = id)) ∘ f) =
      (fun t => decide (t.track_id = id)) := funext (fun u => by simp [Function.comp, hf u])
  rw [hfun]

/-- A track as it enters the reconciliation loop: backfilled, then marked
missing pending observation. -/
def markBackfill (voc : Vocab) (al : List (String × String)) (t : Track) : Track :=
  { backfillTrack voc al t with missing_file := true }

theorem markBackfill_id (voc : Vocab) (al : List (String × String)) (t : Track) :
    (markBackfill voc al t).track_id = t.track_id := rfl

theorem markBackfill_path (voc : Vocab) (al : List (String × String)) (t : Track) :
    (markBackfill voc al t).original_path = t.original_path := rfl

theorem markBackfill_vk (voc : Vocab) (al : List (String × String)) (t : Track) :
    (markBackfill voc al t).virtual_key = t.virtual_key := rfl

theorem markBackfill_fp (voc : Vocab) (al : List (String × String)) (t : Track) :
    (markBackfill voc al t).fingerprint = t.fingerprint := rfl

theorem markBackfill_dup (voc : Vocab) (al : List (String × String)) (t : Track) :
    (markBackfill voc al t).duplicate_of = t.duplicate_of := rfl

theorem postTrack_id (voc : Vocab) (al : List (String × String)) (t : Track) :
    (postTrack voc al t).track_id = t.track_id := rfl

theorem postTrack_path (voc : Vocab) (al : List (String × String)) (t : Track) :
    (postTrack voc al t).original_path = t.original_path := rfl

theorem postTrack_fp (voc : Vocab) (al : List (String × String)) (t : Track) :
    (postTrack voc al t).fingerprint = t.fingerprint := rfl

theorem postTrack_dup (voc : Vocab) (al : List (String × String)) (t : Track) :
    (postTrack voc al t).duplicate_of = t.duplicate_of := rfl

theorem postTrack_missing (voc : Vocab) (al : List (String × String)) (t : Track) :
    (postTrack voc al t).missing_file = t.missing_file := rfl

theorem postTrack_cluster (voc : Vocab) (al : List (String × String)) (t : Track) :
    (postTrack voc al t).cluster_id = t.cluster_id := rfl

theorem tracks2_eq_markBackfill (voc : Vocab) (al : List (String × String))
    (ts : List Track) :
    (ts.map (backfillTrack voc al)).map (fun t => { t with missing_file := true }) =
      ts.map (markBackfill voc al) := by
  rw [List.map_map]
  rfl

theorem getTrack_append_left {l1 : List Track} (l2 : List Track) {id : Nat} {t : Track}
    (h : getTrack l1 id = some t) : getTrack (l1 ++ l2) id = some t := by
  simp only [getTrack, List.find?_append] at h ⊢
  rw [h]
  rfl

/-- When the record's hash has no canonical asset but its path already has an
existing track, the reconciliation loop takes the brand-new-asset branch. -/
theorem processRecord_existing_no_canon (dE : String → Bool) (initVK : Bool) (voc : Vocab)
    (mnp : List ((String × String) × List Nat)) (now : String) (st : SyncState) (r : Disc)
    (tid : Nat) (t : Track)
    (hc : alookup st.canonical_by_sha1 r.sha1 = none)
    (h1 : alookup st.track_by_relpath r.rel_path = some tid)
    (h2 : getTrack st.tracks tid = some t) :
    processRecord dE initVK voc mnp now st r = createTrack voc initVK now st r none := by
  simp only [processRecord, hc, h1, h2, Option.bind]

/-- The brand-new track appended by `createTrack` (with `initVK = false` and
no duplicate link) when the loop state holds the backfilled catalog tracks. -/
def c10NewTrack (cat : Catalog) (gen : Nat) (r : Disc) : Track :=
  let parts := default_vk_components cat.vocab.tag_vocab
  let vk := generate_virtual_key_from_parts parts.moods parts.usable_in_contexts
    parts.instruments parts.styles (keySet cat.tracks)
  { track_id := gen, cluster_id := some (gen + 1), original_path := r.rel_path,
    file_format := r.fmt, raw_file_name := pathName r.rel_path,
    raw_parent_dir_name := pathParentName r.rel_path,
    fingerprint := { sha1 := r.sha1, file_size := r.size, modified_time := r.mtime },
    virtual_key := vk, primary_role := "",
    tags := cat.vocab.tag_vocab.map (fun p =>
      (p.1, if p.1 ∈ vkGroupNames ∧ partFor parts p.1 ≠ "" then [partFor parts p.1] else [])),
    scales := cat.vocab.scale_defs.map (fun p => (p.1, p.2.default)),
    loop_info := {}, length_sec := r.length_sec, bpm := none, notes := "",
    licensing := {}, missing_file := false, duplicate_of := none }

/-- C10: an in-place content change at an unchanged path creates a new asset.
When a scanned record's relative path belongs to an existing asset `E` but its
hash matches no canonical asset, `scan_and_sync` does not relink or update
`E` (its path, virtual key, fingerprint and duplicate link are untouched and
it ends the round flagged `missing_file`); instead it appends a brand-new
asset for that same path with a fresh id, a fresh virtual key and a fresh
cluster, and the summary counts exactly one `new` and no relink/update. -/
theorem C10_inplace_change_creates_new_asset (dE : String → Bool) (cat : Catalog)
    (gen : Nat) (now : String) (r : Disc) (E : Track)
    (hw : WellClustered cat)
    (hnd : (cat.tracks.map (fun t => t.track_id)).Nodup)
    (hgen : ∀ t ∈ cat.tracks, t.track_id < gen)
    (hgcl : ∀ c ∈ cat.clusters, c.cluster_id < gen)
    (hcanon : alookup (canonMap cat.tracks) r.sha1 = none)
    (hpath : alookup (relMap cat.tracks) r.rel_path = some E.track_id)
    (hE : E ∈ cat.tracks) :
    E.original_path = r.rel_path ∧
    ∃ newT E',
      (scan_and_sync dE [r] false cat gen now).2.1.new = 1 ∧
      (scan_and_sync dE [r] false cat gen now).2.1.relinked = 0 ∧
      (scan_and_sync dE [r] false cat gen now).2.1.updated = 0 ∧
      (scan_and_sync dE [r] false cat gen now).2.1.duplicates = 0 ∧
      (scan_and_sync dE [r] false cat gen now).1.tracks =
        cat.tracks.map (fun t => postTrack cat.vocab cat.aliases
          (markBackfill cat.vocab cat.aliases t)) ++ [newT] ∧
      newT.track_id = gen ∧ (∀ t ∈ cat.tracks, t.track_id ≠ gen) ∧
      newT.original_path = r.rel_path ∧
      newT.virtual_key ∉ keySet cat.tracks ∧ newT.virtual_key ≠ "" ∧
      newT.cluster_id = some (gen + 1) ∧ (∀ c ∈ cat.clusters, c.cluster_id ≠ gen + 1) ∧
      newT.duplicate_of = none ∧
      getTrack (scan_and_sync dE [r] false cat gen now).1.tracks E.track_id = some E' ∧
      E'.track_id = E.track_id ∧ E'.original_path = E.original_path ∧
      E'.virtual_key = E.virtual_key ∧ E'.fingerprint = E.fingerprint ∧
      E'.duplicate_of = E.duplicate_of ∧ E'.missing_file = true := by
  obtain ⟨he1, he2, he3, he4, he5⟩ := ensure_of_wellClustered cat gen now hw
  obtain ⟨t0, ht0mem, ht0id, ht0path⟩ := relMap_lookup_mem hpath
  have ht0E : t0 = E := getTrack_unique hnd (getTrack_of_mem_nodup hnd hE) ht0mem ht0id
  have hEpath : E.original_path = r.rel_path := by rw [← ht0E]; exact ht0path
  have hget2 : getTrack (cat.tracks.map (markBackfill cat.vocab cat.aliases)) E.track_id =
      some (markBackfill cat.vocab cat.aliases E) := by
    rw [getTrack_map _ (markBackfill_id cat.vocab cat.aliases),
      getTrack_of_mem_nodup hnd hE]
    rfl
  have htr2 := tracks2_eq_markBackfill cat.vocab cat.aliases cat.tracks
  have hscan : scan_and_sync dE [r] false cat gen now =
      (let st1 := createTrack cat.vocab false now
        { tracks := cat.tracks.map (markBackfill cat.vocab cat.aliases),
          clusters := cat.clusters, existing_keys := keySet cat.tracks,
          canonical_by_sha1 := canonMap cat.tracks, track_by_relpath := relMap cat.tracks,
          used_name_relinks := [], summary := {}, gen := gen } r none
      ({ (ensure_catalog_clusters cat gen now).1 with
          tracks := st1.tracks.map (postTrack cat.vocab cat.aliases),
          clusters := st1.clusters },
        { st1.summary with
          missing := ((st1.tracks.map (postTrack cat.vocab cat.aliases)).filter
            (fun t => t.missing_file)).length }, st1.gen)) := by
    simp only [scan_and_sync, List.foldl_cons, List.foldl_nil, he1, he2, he3, he4, he5, htr2,
      processRecord, hcanon, hpath, hget2, Option.bind]
  rw [hscan]
  refine ⟨hEpath, postTrack cat.vocab cat.aliases (c10NewTrack cat gen r),
    postTrack cat.vocab cat.aliases (markBackfill cat.vocab cat.aliases E),
    rfl, rfl, rfl, rfl, ?htr, rfl, ?hfid, rfl, ?hvkf, ?hvkne, rfl, ?hfcl, rfl, ?hgt,
    ?e1, ?e2, ?e3, ?e4, ?e5, ?e6⟩
  case htr =>
    show (cat.tracks.map (markBackfill cat.vocab cat.aliases) ++
        [c10NewTrack cat gen r]).map (postTrack cat.vocab cat.aliases) = _
    rw [List.map_append, List.map_map]
    rfl
  case hfid =>
    intro t ht
    exact Nat.ne_of_lt (hgen t ht)
  case hvkf =>
    exact generate_virtual_key_from_parts_fresh _ _ _ _ _
  case hvkne =>
    exact generate_virtual_key_from_parts_ne_empty _ _ _ _ _
  case hfcl =>
    intro c hc
    have := hgcl c hc
    omega
  case hgt =>
    show getTrack ((cat.tracks.map (markBackfill cat.vocab cat.aliases) ++
        [c10NewTrack cat gen r]).map (postTrack cat.vocab cat.aliases)) E.track_id = _
    rw [List.map_append]
    refine getTrack_append_left _ ?_
    rw [getTrack_map _ (postTrack_id cat.vocab cat.aliases), hget2]
    rfl
  case e1 => rw [postTrack_id, markBackfill_id]
  case e2 => rw [postTrack_path, markBackfill_path]
  case e3 => rw [postTrack_vk, markBackfill_vk]
  case e4 => rw [postTrack_fp, markBackfill_fp]
  case e5 => rw [postTrack_dup, markBackfill_dup]
  case e6 =>
    rw [postTrack_missing]
    rfl

/-- Concrete pre-existing asset for the C10 scenario. -/
def c10Track : Track :=
  { track_id := 0, cluster_id := some 1, original_path := "a.mp3", file_format := "mp3",
    raw_file_name := "a.mp3",
    fingerprint := { sha1 := "A", file_size := 1, modified_time := 0 },
    virtual_key := "k" }

def c10Cat : Catalog :=
  { clusters := [{ cluster_id := 1, name := "k" }], tracks := [c10Track] }

/-- The file at `a.mp3` was edited in place: same path, new hash `B`. -/
def c10r : Disc := { rel_path := "a.mp3", sha1 := "B", size := 2, mtime := 0, fmt := "mp3" }

def c10DE : String → Bool := fun p => p = "a.mp3"

theorem C10_inplace_change_creates_new_asset_witness :
    c10Track.original_path = c10r.rel_path ∧
    ∃ newT E',
      (scan_and_sync c10DE [c10r] false c10Cat 50 "t").2.1.new = 1 ∧
      (scan_and_sync c10DE [c10r] false c10Cat 50 "t").2.1.relinked = 0 ∧
      (scan_and_sync c10DE [c10r] false c10Cat 50 "t").2.1.updated = 0 ∧
      (scan_and_sync c10DE [c10r] false c10Cat 50 "t").2.1.duplicates = 0 ∧
      (scan_and_sync c10DE [c10r] false c10Cat 50 "t").1.tracks =
        c10Cat.tracks.map (fun t => postTrack c10Cat.vocab c10Cat.aliases
          (markBackfill c10Cat.vocab c10Cat.aliases t)) ++ [newT] ∧
      newT.track_id = 50 ∧ (∀ t ∈ c10Cat.tracks, t.track_id ≠ 50) ∧
      newT.original_path = c10r.rel_path ∧
      newT.virtual_key ∉ keySet c10Cat.tracks ∧ newT.virtual_key ≠ "" ∧
      newT.cluster_id = some (50 + 1) ∧ (∀ c ∈ c10Cat.clusters, c.cluster_id ≠ 50 + 1) ∧
      newT.duplicate_of = none ∧
      getTrack (scan_and_sync c10DE [c10r] false c10Cat 50 "t").1.tracks c10Track.track_id =
        some E' ∧
      E'.track_id = c10Track.track_id ∧ E'.original_path = c10Track.original_path ∧
      E'.virtual_key = c10Track.virtual_key ∧ E'.fingerprint = c10Track.fingerprint ∧
      E'.duplicate_of = c10Track.duplicate_of ∧ E'.missing_file = true := by
  refine C10_inplace_change_creates_new_asset c10DE c10Cat 50 "t" c10r c10Track
    ?_ (by decide) (by decide) (by decide) (by decide) (by decide) (by decide)
  intro t ht
  have hT : t = c10Track := by simpa [c10Cat] using ht
  subst hT
  exact ⟨1, rfl, { cluster_id := 1, name := "k" }, by simp [c10Cat], rfl⟩

/-! ## Claim C5: duplicate-link consistency -/

/-- The claim's invariant: every asset with a duplicate link references an
asset with the same content hash. -/
def DupOK (ts : List Track) : Prop :=
  ∀ t ∈ ts, ∀ d, t.duplicate_of = some d →
    ∃ u ∈ ts, u.track_id = d ∧ u.fingerprint.sha1 = t.fingerprint.sha1

/-- Executable form of `DupOK`. -/
def dupOKb (ts : List Track) : Bool :=
  ts.all (fun t =>
    match t.duplicate_of with
    | none => true
    | some d => ts.any (fun u => u.track_id = d && u.fingerprint.sha1 = t.fingerprint.sha1))

theorem dupOKb_iff (ts : List Track) : dupOKb ts = true ↔ DupOK ts := by
  rw [dupOKb, List.all_eq_true]
  constructor
  · intro h t ht d hd
    have hb := h t ht
    simp only [hd, List.any_eq_true, Bool.and_eq_true, decide_eq_true_eq] at hb
    obtain ⟨u, hu, h1, h2⟩ := hb
    exact ⟨u, hu, h1, h2⟩
  · intro h t ht
    cases hd : t.duplicate_of with
    | none => simp
    | some d =>
      obtain ⟨u, hu, h1, h2⟩ := h t ht d hd
      simp only [List.any_eq_true, Bool.and_eq_true, decide_eq_true_eq]
      exact ⟨u, hu, h1, h2⟩

theorem backfillTrack_path (voc : Vocab) (al : List (String × String)) (t : Track) :
    (backfillTrack voc al t).original_path = t.original_path := rfl

theorem markBackfill_sha (voc : Vocab) (al : List (String × String)) (t : Track) :
    (markBackfill voc al t).fingerprint.sha1 = t.fingerprint.sha1 := rfl

theorem postTrack_sha (voc : Vocab) (al : List (String × String)) (t : Track) :
    (postTrack voc al t).fingerprint.sha1 = t.fingerprint.sha1 := rfl

theorem getTrack_mem {ts : List Track} {id : Nat} {t : Track} (h : getTrack ts id = some t) :
    t ∈ ts ∧ t.track_id = id := by
  refine ⟨List.mem_of_find?_eq_some h, ?_⟩
  have := List.find?_some h
  simpa using this

theorem mem_id_unique {ts : List Track} (hnd : (ts.map (fun t => t.track_id)).Nodup)
    {t u : Track} (ht : t ∈ ts) (hu : u ∈ ts) (h : t.track_id = u.track_id) : t = u :=
  getTrack_unique hnd (getTrack_of_mem_nodup hnd hu) ht h

theorem DupOK_map {ts : List Track} (g : Track → Track)
    (hg : ∀ t, (g t).track_id = t.track_id ∧ (g t).fingerprint.sha1 = t.fingerprint.sha1 ∧
      (g t).duplicate_of = t.duplicate_of)
    (h : DupOK ts) : DupOK (ts.map g) := by
  intro t' ht' d hd
  obtain ⟨t, ht, rfl⟩ := List.mem_map.mp ht'
  obtain ⟨u, hu, h1, h2⟩ := h t ht d (by rw [← (hg t).2.2]; exact hd)
  exact ⟨g u, List.mem_map_of_mem g hu, by rw [(hg u).1]; exact h1,
    by rw [(hg u).2.1, (hg t).2.1]; exact h2⟩

theorem DupOK_updTrack (ts : List Track) (id : Nat) (f : Track → Track)
    (hf : ∀ t, (f t).track_id = t.track_id ∧ (f t).fingerprint.sha1 = t.fingerprint.sha1 ∧
      (f t).duplicate_of = t.duplicate_of)
    (h : DupOK ts) : DupOK (updTrack ts id f) := by
  show DupOK (ts.map (fun t => if t.track_id = id then f t else t))
  exact DupOK_map _ (fun t => by
    by_cases hc : t.track_id = id
    · rw [if_pos hc]
      exact hf t
    · rw [if_neg hc]
      exact ⟨rfl, rfl, rfl⟩) h

/-- The duplicate-marking update keeps `DupOK` when every track at the
updated id has hash `s` and some track with id `cid` also has hash `s`. -/
theorem DupOK_updTrack_link (ts : List Track) (etid cid : Nat) (s : String)
    (f : Track → Track)
    (hfid : ∀ t, (f t).track_id = t.track_id)
    (hfsha : ∀ t, (f t).fingerprint.sha1 = t.fingerprint.sha1)
    (hfdup : ∀ t, (f t).duplicate_of =
      if t.duplicate_of = none ∧ t.track_id ≠ cid then some cid else t.duplicate_of)
    (het : ∀ t ∈ ts, t.track_id = etid → t.fingerprint.sha1 = s)
    (hcanon : ∃ u ∈ ts, u.track_id = cid ∧ u.fingerprint.sha1 = s)
    (h : DupOK ts) : DupOK (updTrack ts etid f) := by
  intro t' ht' d hd
  simp only [updTrack, List.mem_map] at ht'
  obtain ⟨t, ht, rfl⟩ := ht'
  have hgid : ∀ u : Track, (if u.track_id = etid then f u else u).track_id = u.track_id := by
    intro u
    by_cases hc : u.track_id = etid
    · rw [if_pos hc, hfid]
    · rw [if_neg hc]
  have hgsha : ∀ u : Track, (if u.track_id = etid then f u else u).fingerprint.sha1 =
      u.fingerprint.sha1 := by
    intro u
    by_cases hc : u.track_id = etid
    · rw [if_pos hc, hfsha]
    · rw [if_neg hc]
  by_cases hkey : t.track_id = etid
  · rw [if_pos hkey] at hd
    rw [hfdup] at hd
    by_cases hcond : t.duplicate_of = none ∧ t.track_id ≠ cid
    · rw [if_pos hcond] at hd
      have hdcid : cid = d := Option.some_inj.mp hd
      obtain ⟨u, hu, h1, h2⟩ := hcanon
      refine ⟨_, List.mem_map_of_mem _ hu, ?_, ?_⟩
      · rw [hgid u, h1, hdcid]
      · rw [hgsha u, h2, hgsha t]
        exact (het t ht hkey).symm
    · rw [if_neg hcond] at hd
      obtain ⟨u, hu, h1, h2⟩ := h t ht d hd
      exact ⟨_, List.mem_map_of_mem _ hu, by rw [hgid u]; exact h1,
        by rw [hgsha u, hgsha t]; exact h2⟩
  · rw [if_neg hkey] at hd
    obtain ⟨u, hu, h1, h2⟩ := h t ht d hd
    exact ⟨_, List.mem_map_of_mem _ hu, by rw [hgid u]; exact h1,
      by rw [hgsha u, hgsha t]; exact h2⟩

/-- The loop-state invariant for duplicate-link consistency, over the state
components it constrains: unique ids below the fresh-id supply, every stored
path present on disk, the claim's duplicate invariant, and the canonical /
path lookup maps pointing at tracks that carry the looked-up hash / path. -/
def C5InvT (dE : String → Bool) (ts : List Track) (cm rm : List (String × Nat))
    (g : Nat) : Prop :=
  (ts.map (fun t => t.track_id)).Nodup ∧
  (∀ t ∈ ts, t.track_id < g) ∧
  (∀ t ∈ ts, dE t.original_path = true) ∧
  DupOK ts ∧
  (∀ s i, alookup cm s = some i → ∃ t ∈ ts, t.track_id = i ∧ t.fingerprint.sha1 = s) ∧
  (∀ p i, alookup rm p = some i → ∃ t ∈ ts, t.track_id = i ∧ t.original_path = p)

def C5Inv (dE : String → Bool) (st : SyncState) : Prop :=
  C5InvT dE st.tracks st.canonical_by_sha1 st.track_by_relpath st.gen

/-- How each track of the post-step state relates to the pre-step state:
either it keeps some old track's path and hash, or it sits at the processed
record's path with the record's hash. -/
def TrackCorr (old new : List Track) (r : Disc) : Prop :=
  ∀ t' ∈ new, (∃ u ∈ old, t'.original_path = u.original_path ∧
    t'.fingerprint.sha1 = u.fingerprint.sha1) ∨
    (t'.original_path = r.rel_path ∧ t'.fingerprint.sha1 = r.sha1)

theorem TrackCorr_refl (ts : List Track) (r : Disc) : TrackCorr ts ts r :=
  fun t' ht' => Or.inl ⟨t', ht', rfl, rfl⟩

theorem TrackCorr_updTrack_of {a b : List Track} {r : Disc} (id : Nat) (f : Track → Track)
    (hf : ∀ t, (f t).original_path = t.original_path ∧
      (f t).fingerprint.sha1 = t.fingerprint.sha1)
    (h : TrackCorr a b r) : TrackCorr a (updTrack b id f) r := by
  intro t' ht'
  simp only [updTrack, List.mem_map] at ht'
  obtain ⟨t, ht, rfl⟩ := ht'
  have hp : (if t.track_id = id then f t else t).original_path = t.original_path := by
    by_cases hc : t.track_id = id
    · rw [if_pos hc]
      exact (hf t).1
    · rw [if_neg hc]
  have hs : (if t.track_id = id then f t else t).fingerprint.sha1 = t.fingerprint.sha1 := by
    by_cases hc : t.track_id = id
    · rw [if_pos hc]
      exact (hf t).2
    · rw [if_neg hc]
  rcases h t ht with ⟨u, hu, h1, h2⟩ | ⟨h1, h2⟩
  · exact Or.inl ⟨u, hu, by rw [hp]; exact h1, by rw [hs]; exact h2⟩
  · exact Or.inr ⟨by rw [hp]; exact h1, by rw [hs]; exact h2⟩

theorem TrackCorr_createTrack_of {a : List Track} {r : Disc} (voc : Vocab) (initVK : Bool)
    (now : String) (st : SyncState) (dupOf : Option Nat)
    (h : TrackCorr a st.tracks r) :
    TrackCorr a (createTrack voc initVK now st r dupOf).tracks r := by
  intro t' ht'
  simp only [createTrack] at ht'
  rcases List.mem_append.mp ht' with ht | ht
  · exact h t' ht
  · rw [List.mem_singleton] at ht
    subst ht
    exact Or.inr ⟨rfl, rfl⟩

theorem C5InvT_updTrack (dE : String → Bool) (ts : List Track)
    (cm rm : List (String × Nat)) (g : Nat) (id : Nat) (f : Track → Track)
    (hf : ∀ t, (f t).track_id = t.track_id ∧ (f t).original_path = t.original_path ∧
      (f t).fingerprint.sha1 = t.fingerprint.sha1)
    (h : C5InvT dE ts cm rm g)
    (hdup : DupOK (updTrack ts id f)) :
    C5InvT dE (updTrack ts id f) cm rm g := by
  obtain ⟨hnd, hg, hd, _, hcan, hrel⟩ := h
  have hgp : ∀ t : Track, (if t.track_id = id then f t else t).track_id = t.track_id ∧
      (if t.track_id = id then f t else t).original_path = t.original_path ∧
      (if t.track_id = id then f t else t).fingerprint.sha1 = t.fingerprint.sha1 := by
    intro t
    by_cases hc : t.track_id = id
    · rw [if_pos hc]
      exact hf t
    · rw [if_neg hc]
      exact ⟨rfl, rfl, rfl⟩
  refine ⟨?_, ?_, ?_, hdup, ?_, ?_⟩
  · have hm : (updTrack ts id f).map (fun t => t.track_id) =
        ts.map (fun t => t.track_id) :=
      updTrack_map_general ts id f _ (fun t => (hf t).1)
    rw [hm]
    exact hnd
  · intro t' ht'
    simp only [updTrack, List.mem_map] at ht'
    obtain ⟨t, ht, rfl⟩ := ht'
    rw [(hgp t).1]
    exact hg t ht
  · intro t' ht'
    simp only [updTrack, List.mem_map] at ht'
    obtain ⟨t, ht, rfl⟩ := ht'
    rw [(hgp t).2.1]
    exact hd t ht
  · intro s i hl
    obtain ⟨t, ht, h1, h2⟩ := hcan s i hl
    refine ⟨if t.track_id = id then f t else t, ?_, ?_, ?_⟩
    · simp only [updTrack]
      exact List.mem_map_of_mem _ ht
    · rw [(hgp t).1]
      exact h1
    · rw [(hgp t).2.2]
      exact h2
  · intro p i hl
    obtain ⟨t, ht, h1, h2⟩ := hrel p i hl
    refine ⟨if t.track_id = id then f t else t, ?_, ?_, ?_⟩
    · simp only [updTrack]
      exact List.mem_map_of_mem _ ht
    · rw [(hgp t).1]
      exact h1
    · rw [(hgp t).2.1]
      exact h2

theorem C5Inv_createTrack (dE : String → Bool) (voc : Vocab) (initVK : Bool) (now : String)
    (st : SyncState) (r : Disc) (dupOf : Option Nat)
    (h : C5InvT dE st.tracks st.canonical_by_sha1 st.track_by_relpath st.gen)
    (hrd : dE r.rel_path = true)
    (hdup : dupOf = none ∨ ∃ c ∈ st.tracks, dupOf = some c.track_id ∧
      c.fingerprint.sha1 = r.sha1) :
    C5Inv dE (createTrack voc initVK now st r dupOf) := by
  obtain ⟨hnd, hg, hd, hdupok, hcan, hrel⟩ := h
  unfold C5Inv C5InvT createTrack
  dsimp only
  refine ⟨?_, ?_, ?_, ?_, ?_, ?_⟩
  · rw [List.map_append, List.map_cons, List.map_nil]
    apply nodup_append_singleton hnd
    intro hmem
    obtain ⟨t, ht, hteq⟩ := List.mem_map.mp hmem
    have := hg t ht
    dsimp only at hteq
    omega
  · intro t' ht'
    rcases List.mem_append.mp ht' with ht | ht
    · have := hg t' ht
      omega
    · rw [List.mem_singleton] at ht
      subst ht
      show st.gen < st.gen + 2
      omega
  · intro t' ht'
    rcases List.mem_append.mp ht' with ht | ht
    · exact hd t' ht
    · rw [List.mem_singleton] at ht
      subst ht
      exact hrd
  · intro t' ht' d hd'
    rcases List.mem_append.mp ht' with ht | ht
    · obtain ⟨u, hu, h1, h2⟩ := hdupok t' ht d hd'
      exact ⟨u, List.mem_append_left _ hu, h1, h2⟩
    · rw [List.mem_singleton] at ht
      subst ht
      have hd2 : dupOf = some d := hd'
      rcases hdup with rfl | ⟨c, hc, hceq, hcsha⟩
      · exact Option.noConfusion hd2
      · rw [hceq] at hd2
        have hcd : c.track_id = d := Option.some_inj.mp hd2
        exact ⟨c, List.mem_append_left _ hc, hcd, hcsha⟩
  · rcases hdup with rfl | ⟨c, hc, hceq, hcsha⟩
    · intro s i hl
      rw [if_pos rfl] at hl
      rw [alookup_aset_cases] at hl
      by_cases hs : r.sha1 = s
      · rw [if_pos hs] at hl
        have hi : st.gen = i := Option.some_inj.mp hl
        exact ⟨_, List.mem_append_right _ (List.mem_singleton.mpr rfl), hi ▸ rfl, hs ▸ rfl⟩
      · rw [if_neg hs] at hl
        obtain ⟨t, ht, h1, h2⟩ := hcan s i hl
        exact ⟨t, List.mem_append_left _ ht, h1, h2⟩
    · intro s i hl
      rw [hceq, if_neg (by simp)] at hl
      obtain ⟨t, ht, h1, h2⟩ := hcan s i hl
      exact ⟨t, List.mem_append_left _ ht, h1, h2⟩
  · intro p i hl
    rw [alookup_aset_cases] at hl
    by_cases hp : r.rel_path = p
    · rw [if_pos hp] at hl
      have hi : st.gen = i := Option.some_inj.mp hl
      exact ⟨_, List.mem_append_right _ (List.mem_singleton.mpr rfl), hi ▸ rfl, hp ▸ rfl⟩
    · rw [if_neg hp] at hl
      obtain ⟨t, ht, h1, h2⟩ := hrel p i hl
      exact ⟨t, List.mem_append_left _ ht, h1, h2⟩

theorem buildMnp_nil (dE : String → Bool) (ts : List Track)
    (h : ∀ t ∈ ts, dE t.original_path = true) : buildMnp dE ts = [] := by
  suffices hgen : ∀ (l : List Track) (acc : List ((String × String) × List Nat)),
      (∀ t ∈ l, dE t.original_path = true) →
      l.foldl (fun m t =>
        if t.original_path = "" then m
        else if dE t.original_path then m
        else
          let fname := strTrim (strLower t.raw_file_name)
          if fname = "" then m
          else mnpAdd m (fname, strTrim (strLower t.raw_parent_dir_name)) t.track_id) acc =
        acc by
    exact hgen ts [] h
  intro l
  induction l with
  | nil => intro acc _; rfl
  | cons t rest ih =>
    intro acc hall
    simp only [List.foldl_cons]
    have hdE : dE t.original_path = true := hall t (List.mem_cons_self _ _)
    by_cases hp : t.original_path = ""
    · rw [if_pos hp]
      exact ih acc (fun u hu => hall u (List.mem_cons_of_mem _ hu))
    · rw [if_neg hp, if_pos hdE]
      exact ih acc (fun u hu => hall u (List.mem_cons_of_mem _ hu))

theorem processRecord_C5 (dE : String → Bool) (initVK : Bool) (voc : Vocab) (now : String)
    (st : SyncState) (r : Disc)
    (h : C5Inv dE st) (hrd : dE r.rel_path = true)
    (hsha : ∀ t ∈ st.tracks, t.original_path = r.rel_path → t.fingerprint.sha1 = r.sha1) :
    C5Inv dE (processRecord dE initVK voc [] now st r) ∧
    TrackCorr st.tracks (processRecord dE initVK voc [] now st r).tracks r := by
  simp only [processRecord]
  split
  · -- no canonical asset for this hash
    split
    · -- no existing track at this path: the empty fallback index yields no candidate
      split
      · rename_i cand hpick
        simp [mnpLookup, pick_name_parent_candidate] at hpick
      · exact ⟨C5Inv_createTrack dE voc initVK now st r none h hrd (Or.inl rfl),
          TrackCorr_createTrack_of voc initVK now st none (TrackCorr_refl st.tracks r)⟩
    · exact ⟨C5Inv_createTrack dE voc initVK now st r none h hrd (Or.inl rfl),
        TrackCorr_createTrack_of voc initVK now st none (TrackCorr_refl st.tracks r)⟩
  · -- a canonical asset exists; it carries the record's hash
    rename_i canon heq
    obtain ⟨cid, hlook, hget⟩ := Option.bind_eq_some.mp heq
    obtain ⟨hcm, hcid⟩ := getTrack_mem hget
    obtain ⟨tc, htcm, htci, htcs⟩ := h.2.2.2.2.1 r.sha1 cid hlook
    have hceq : canon = tc := mem_id_unique h.1 hcm htcm (by rw [hcid, htci])
    have hcs : canon.fingerprint.sha1 = r.sha1 := by rw [hceq]; exact htcs
    have h1 : C5InvT dE (updTrack st.tracks canon.track_id
        (fun c => { c with missing_file := false })) st.canonical_by_sha1
        st.track_by_relpath st.gen := by
      apply C5InvT_updTrack
      · intro t
        exact ⟨rfl, rfl, rfl⟩
      · exact h
      · apply DupOK_updTrack
        · intro t
          exact ⟨rfl, rfl, rfl⟩
        · exact h.2.2.2.1
    have hc1 : TrackCorr st.tracks (updTrack st.tracks canon.track_id
        (fun c => { c with missing_file := false })) r := by
      apply TrackCorr_updTrack_of
      · intro t
        exact ⟨rfl, rfl⟩
      · exact TrackCorr_refl st.tracks r
    split
    · -- the canonical asset already sits at the record's path
      split
      · -- refresh size and mtime in place
        refine ⟨?_, ?_⟩
        · apply C5InvT_updTrack
          · intro t
            exact ⟨rfl, rfl, rfl⟩
          · exact h1
          · apply DupOK_updTrack
            · intro t
              exact ⟨rfl, rfl, rfl⟩
            · exact h1.2.2.2.1
        · apply TrackCorr_updTrack_of
          · intro t
            exact ⟨rfl, rfl⟩
          · exact hc1
      · exact ⟨h1, hc1⟩
    · -- the canonical asset lives elsewhere
      split
      · -- its stored path missing from disk: impossible, every stored path exists
        rename_i hmiss
        exact absurd (h.2.2.1 canon hcm) hmiss
      · split
        · -- an existing track sits at this path: mark it a duplicate of the canonical
          rename_i et hetq
          obtain ⟨tid, hlook2, hget2⟩ := Option.bind_eq_some.mp hetq
          obtain ⟨hem, heid⟩ := getTrack_mem hget2
          obtain ⟨te, htem, htei, htep⟩ := h.2.2.2.2.2 r.rel_path tid hlook2
          have heeq : et = te := mem_id_unique h.1 hem htem (by rw [heid, htei])
          have heps : et.original_path = r.rel_path := by rw [heeq]; exact htep
          have hes : et.fingerprint.sha1 = r.sha1 := hsha et hem heps
          refine ⟨?_, ?_⟩
          · apply C5InvT_updTrack
            · intro t
              exact ⟨rfl, rfl, rfl⟩
            · exact h1
            · refine DupOK_updTrack_link _ et.track_id canon.track_id r.sha1 _
                ?_ ?_ ?_ ?_ ?_ h1.2.2.2.1
              · intro t
                rfl
              · intro t
                rfl
              · intro t
                rfl
              · intro t ht htid
                simp only [updTrack, List.mem_map] at ht
                obtain ⟨u, hu, rfl⟩ := ht
                by_cases hc : u.track_id = canon.track_id
                · rw [if_pos hc] at htid ⊢
                  have huid : u = et := mem_id_unique h.1 hu hem htid
                  rw [huid]
                  exact hes
                · rw [if_neg hc] at htid ⊢
                  have huid : u = et := mem_id_unique h.1 hu hem htid
                  rw [huid]
                  exact hes
              · refine ⟨if canon.track_id = canon.track_id
                    then { canon with missing_file := false } else canon, ?_, ?_, ?_⟩
                · exact List.mem_map_of_mem _ hcm
                · rw [if_pos rfl]
                · rw [if_pos rfl]
                  exact hcs
          · apply TrackCorr_updTrack_of
            · intro t
              exact ⟨rfl, rfl⟩
            · exact hc1
        · -- no track at this path: create a linked duplicate
          refine ⟨?_, ?_⟩
          · refine C5Inv_createTrack dE voc initVK now _ r (some canon.track_id) ?_ hrd ?_
            · exact h1
            · refine Or.inr ⟨if canon.track_id = canon.track_id
                  then { canon with missing_file := false } else canon, ?_, ?_, ?_⟩
              · exact List.mem_map_of_mem _ hcm
              · rw [if_pos rfl]
              · rw [if_pos rfl]
                exact hcs
          · apply TrackCorr_createTrack_of
            exact hc1

theorem c5_fold (dE : String → Bool) (initVK : Bool) (voc : Vocab) (now : String) :
    ∀ (D : List Disc) (st : SyncState),
      C5Inv dE st →
      (∀ r ∈ D, dE r.rel_path = true) →
      (∀ r ∈ D, ∀ t ∈ st.tracks, t.original_path = r.rel_path →
        t.fingerprint.sha1 = r.sha1) →
      (∀ r ∈ D, ∀ r' ∈ D, r.rel_path = r'.rel_path → r.sha1 = r'.sha1) →
      C5Inv dE (D.foldl (processRecord dE initVK voc [] now) st) := by
  intro D
  induction D with
  | nil => intro st h _ _ _; exact h
  | cons r rest ih =>
    intro st h hrd hsha hrr
    simp only [List.foldl_cons]
    have hstep := processRecord_C5 dE initVK voc now st r h
      (hrd r (List.mem_cons_self _ _)) (hsha r (List.mem_cons_self _ _))
    refine ih _ hstep.1 (fun a ha => hrd a (List.mem_cons_of_mem _ ha)) ?_
      (fun a ha b hb hab =>
        hrr a (List.mem_cons_of_mem _ ha) b (List.mem_cons_of_mem _ hb) hab)
    intro r' hr' t' ht' hpath'
    rcases hstep.2 t' ht' with ⟨u, hu, hp, hs⟩ | ⟨hp, hs⟩
    · rw [hs]
      exact hsha r' (List.mem_cons_of_mem _ hr') u hu (by rw [← hp]; exact hpath')
    · rw [hs]
      exact hrr r (List.mem_cons_self _ _) r' (List.mem_cons_of_mem _ hr')
        (by rw [← hp, hpath'])

/-- C5 (amended): the duplicate-link consistency invariant is preserved by
`scan_and_sync` provided no stored hash is stale — every stored path exists on
disk, every discovered record's path exists, any track already sitting at a
record's path carries exactly the record's hash, and records agreeing on path
agree on hash. (Unconditionally the invariant can break: see the
counterexample, where a stale-hashed track at a rescanned path is linked as a
duplicate of a canonical asset with a different hash.) -/
theorem C5_duplicate_link_consistency (dE : String → Bool) (D : List Disc) (initVK : Bool)
    (cat : Catalog) (gen : Nat) (now : String)
    (hw : WellClustered cat)
    (hnd : (cat.tracks.map (fun t => t.track_id)).Nodup)
    (hgen : ∀ t ∈ cat.tracks, t.track_id < gen)
    (hdupok : DupOK cat.tracks)
    (hdisk : ∀ t ∈ cat.tracks, dE t.original_path = true)
    (hrd : ∀ r ∈ D, dE r.rel_path = true)
    (hsha : ∀ r ∈ D, ∀ t ∈ cat.tracks, t.original_path = r.rel_path →
      t.fingerprint.sha1 = r.sha1)
    (hrr : ∀ r ∈ D, ∀ r' ∈ D, r.rel_path = r'.rel_path → r.sha1 = r'.sha1) :
    DupOK (scan_and_sync dE D initVK cat gen now).1.tracks := by
  obtain ⟨he1, he2, he3, he4, he5⟩ := ensure_of_wellClustered cat gen now hw
  have htr2 := tracks2_eq_markBackfill cat.vocab cat.aliases cat.tracks
  have hmnp : buildMnp dE (cat.tracks.map (backfillTrack cat.vocab cat.aliases)) = [] := by
    apply buildMnp_nil
    intro t ht
    obtain ⟨u, hu, rfl⟩ := List.mem_map.mp ht
    rw [backfillTrack_path]
    exact hdisk u hu
  simp only [scan_and_sync, he1, he2, he3, he4, he5, htr2, hmnp]
  apply DupOK_map
  · intro t
    exact ⟨postTrack_id cat.vocab cat.aliases t, postTrack_sha cat.vocab cat.aliases t,
      postTrack_dup cat.vocab cat.aliases t⟩
  refine (c5_fold dE initVK cat.vocab now D _ ?_ hrd ?_ hrr).2.2.2.1
  · unfold C5Inv
    dsimp only
    refine ⟨?_, ?_, ?_, ?_, ?_, ?_⟩
    · rw [List.map_map]
      have hco : ((fun t : Track => t.track_id) ∘ markBackfill cat.vocab cat.aliases) =
          (fun t : Track => t.track_id) :=
        funext (fun t => markBackfill_id cat.vocab cat.aliases t)
      rw [hco]
      exact hnd
    · intro t' ht'
      obtain ⟨t, ht, rfl⟩ := List.mem_map.mp ht'
      rw [markBackfill_id]
      exact hgen t ht
    · intro t' ht'
      obtain ⟨t, ht, rfl⟩ := List.mem_map.mp ht'
      rw [markBackfill_path]
      exact hdisk t ht
    · exact DupOK_map _ (fun t => ⟨markBackfill_id cat.vocab cat.aliases t,
        markBackfill_sha cat.vocab cat.aliases t,
        markBackfill_dup cat.vocab cat.aliases t⟩) hdupok
    · intro s i hl
      obtain ⟨t, ht, h1, h2, _⟩ := canonMap_lookup_mem hl
      exact ⟨markBackfill cat.vocab cat.aliases t, List.mem_map_of_mem _ ht,
        by rw [markBackfill_id]; exact h1, by rw [markBackfill_sha]; exact h2⟩
    · intro p i hl
      obtain ⟨t, ht, h1, h2⟩ := relMap_lookup_mem hl
      exact ⟨markBackfill cat.vocab cat.aliases t, List.mem_map_of_mem _ ht,
        by rw [markBackfill_id]; exact h1, by rw [markBackfill_path]; exact h2⟩
  · intro a ha t' ht' hpath'
    obtain ⟨t, ht, rfl⟩ := List.mem_map.mp ht'
    rw [markBackfill_sha]
    rw [markBackfill_path] at hpath'
    exact hsha a ha t ht hpath'

/-- The file at `a.mp3` rescanned unchanged: same path, same hash `A`. -/
def c5r : Disc := { rel_path := "a.mp3", sha1 := "A", size := 1, mtime := 0, fmt := "mp3" }

theorem C5_duplicate_link_consistency_witness :
    DupOK (scan_and_sync c10DE [c5r] false c10Cat 50 "t").1.tracks := by
  refine C5_duplicate_link_consistency c10DE [c5r] false c10Cat 50 "t"
    ?_ (by decide) (by decide) ?_ (by decide) (by decide) (by decide) (by decide)
  · intro t ht
    have hT : t = c10Track := by simpa [c10Cat] using ht
    subst hT
    exact ⟨1, rfl, { cluster_id := 1, name := "k" }, by simp [c10Cat], rfl⟩
  · intro t ht d hd
    have hT : t = c10Track := by simpa [c10Cat] using ht
    subst hT
    exact Option.noConfusion hd

/-- C5 counterexample: the duplicate-link invariant is NOT preserved by
`scan_and_sync` in general. `c1Cat` satisfies it vacuously (no duplicate
links), but after one scan over `c1Disc` the in-place-edited asset `E`
(stored hash `Z`) is linked as `duplicate_of` the canonical asset `C` whose
hash is `X` — the linked pair disagree on content hash. -/
theorem C5_counterexample : DupOK c1Cat.tracks ∧ ¬ DupOK c1Run1.1.tracks := by
  constructor
  · rw [← dupOKb_iff]
    decide
  · rw [← dupOKb_iff]
    decide

/-! ## Claim C4: content-preserving move -/

theorem mtClose_self (a : Rat) : mtClose a a = true := by
  simp only [mtClose, decide_eq_true_eq]
  have h0 : a.num * (a.den : Int) - a.num * (a.den : Int) = 0 := by ring
  rw [h0]
  simp only [Int.natAbs_zero, Nat.mul_zero]
  exact Nat.mul_pos a.pos a.pos

/-- A discovered record that is a *stable hit*: its hash has a canonical
asset that still sits at exactly this path with matching size and mtime. -/
def StableRec (cat : Catalog) (r : Disc) : Prop :=
  ∃ tid T, alookup (canonMap cat.tracks) r.sha1 = some tid ∧
    getTrack cat.tracks tid = some T ∧ T.original_path = r.rel_path ∧
    T.fingerprint.file_size = r.size ∧ mtClose T.fingerprint.modified_time r.mtime = true

/-- Pointwise relation between a backfilled pre-scan track and its loop-state
version: id, virtual key and hash never change; the track `mid` gets the
record's path/size/mtime once the move has been applied, every other track
keeps its path and fingerprint. -/
def C4R (mid : Nat) (rm : Disc) (moved : Bool) (x y : Track) : Prop :=
  y.track_id = x.track_id ∧ y.virtual_key = x.virtual_key ∧
  y.fingerprint.sha1 = x.fingerprint.sha1 ∧
  (x.track_id = mid ∧ moved = true →
    y.original_path = rm.rel_path ∧ y.fingerprint.file_size = rm.size ∧
      y.fingerprint.modified_time = rm.mtime) ∧
  (¬ (x.track_id = mid ∧ moved = true) →
    y.original_path = x.original_path ∧ y.fingerprint = x.fingerprint)

/-- The loop-state invariant for the content-preserving-move argument. -/
def C4Inv (cat : Catalog) (mid : Nat) (rm : Disc) (moved : Bool) (st : SyncState) : Prop :=
  st.canonical_by_sha1 = canonMap cat.tracks ∧
  st.summary = { relinked := cond moved 1 0 } ∧
  List.Forall₂ (C4R mid rm moved)
    (cat.tracks.map (markBackfill cat.vocab cat.aliases)) st.tracks

theorem forall2_map_right_mem {R S : Track → Track → Prop} (g : Track → Track) :
    ∀ {a b : List Track}, List.Forall₂ R a b →
      (∀ x y, x ∈ a → R x y → S x (g y)) → List.Forall₂ S a (b.map g) := by
  intro a b h
  induction h with
  | nil => intro _; exact List.Forall₂.nil
  | cons hxy hrest ih =>
    rename_i x y a' b'
    intro hg
    exact List.Forall₂.cons (hg x y (List.mem_cons_self _ _) hxy)
      (ih (fun u v hu huv => hg u v (List.mem_cons_of_mem _ hu) huv))

theorem forall2_getTrack {R : Track → Track → Prop} {a b : List Track}
    (hid : ∀ x y, R x y → y.track_id = x.track_id) (h : List.Forall₂ R a b) :
    ∀ {id : Nat} {t : Track}, getTrack a id = some t →
      ∃ t', getTrack b id = some t' ∧ R t t' := by
  induction h with
  | nil => intro id t ht; exact Option.noConfusion ht
  | cons hxy hrest ih =>
    rename_i x y a' b'
    intro id t ht
    rw [getTrack_cons] at ht
    rw [getTrack_cons]
    by_cases hcx : x.track_id = id
    · rw [if_pos hcx] at ht
      have hxt : x = t := Option.some_inj.mp ht
      subst hxt
      rw [if_pos (by rw [hid x y hxy]; exact hcx)]
      exact ⟨y, rfl, hxy⟩
    · rw [if_neg hcx] at ht
      rw [if_neg (by rw [hid x y hxy]; exact hcx)]
      exact ih ht

/-- Flipping `missing_file` preserves the pointwise relation. -/
theorem C4R_missing (mid : Nat) (rm : Disc) (mv : Bool) (k : Nat) (x y : Track)
    (h : C4R mid rm mv x y) :
    C4R mid rm mv x (if y.track_id = k then { y with missing_file := false } else y) := by
  by_cases hc : y.track_id = k
  · rw [if_pos hc]
    exact h
  · rw [if_neg hc]
    exact h

/-- Applying the relink update at the canonical track's id turns the
pre-move relation into the post-move relation. -/
theorem C4R_relink (mid : Nat) (rm : Disc) (k : Nat) (hmid : k = mid) (x y : Track)
    (h : C4R mid rm false x y) :
    C4R mid rm true x (if y.track_id = k then
      { y with
        original_path := rm.rel_path, file_format := rm.fmt,
        raw_file_name := pathName rm.rel_path,
        raw_parent_dir_name := pathParentName rm.rel_path,
        fingerprint := { y.fingerprint with
          file_size := rm.size, modified_time := rm.mtime },
        length_sec := if y.length_sec = none ∧ rm.length_sec ≠ none then rm.length_sec
          else y.length_sec } else y) := by
  obtain ⟨h1, h2, h3, _, h5⟩ := h
  by_cases hc : y.track_id = k
  · rw [if_pos hc]
    refine ⟨h1, h2, h3, ?_, ?_⟩
    · intro _
      exact ⟨rfl, rfl, rfl⟩
    · intro hnx
      exfalso
      apply hnx
      refine ⟨?_, rfl⟩
      rw [← h1, hc, hmid]
  · rw [if_neg hc]
    have hxid : ¬ x.track_id = mid := by
      intro hxm
      apply hc
      rw [h1, hxm, hmid]
    refine ⟨h1, h2, h3, ?_, ?_⟩
    · intro hx2
      exact absurd hx2.1 hxid
    · intro _
      refine h5 ?_
      simp

theorem processRecord_C4_rm (cat : Catalog) (dE : String → Bool) (initVK : Bool)
    (voc : Vocab) (mnp : List ((String × String) × List Nat)) (now : String)
    (rm : Disc) (mid : Nat) (M : Track) (st : SyncState) (moved : Bool)
    (_hnd : (cat.tracks.map (fun t => t.track_id)).Nodup)
    (hcanon : alookup (canonMap cat.tracks) rm.sha1 = some mid)
    (hM : getTrack cat.tracks mid = some M)
    (hMpath : M.original_path ≠ rm.rel_path)
    (hMdisk : dE M.original_path = false)
    (h : C4Inv cat mid rm moved st) :
    C4Inv cat mid rm true (processRecord dE initVK voc mnp now st rm) := by
  obtain ⟨hc, hs, hf⟩ := h
  have hMmem : M ∈ cat.tracks := (getTrack_mem hM).1
  have hMid : M.track_id = mid := (getTrack_mem hM).2
  have hbase : getTrack (cat.tracks.map (markBackfill cat.vocab cat.aliases)) mid =
      some (markBackfill cat.vocab cat.aliases M) := by
    rw [getTrack_map _ (markBackfill_id cat.vocab cat.aliases), hM]
    rfl
  obtain ⟨M', hM', hRM⟩ := forall2_getTrack (fun x y hxy => hxy.1) hf hbase
  have hM'id : M'.track_id = mid := by
    rw [hRM.1, markBackfill_id]
    exact hMid
  have hsc : (alookup st.canonical_by_sha1 rm.sha1).bind (getTrack st.tracks) = some M' := by
    rw [hc, hcanon]
    exact hM'
  simp only [processRecord, hsc]
  obtain ⟨hRid, hRvk, hRsha, hRif, hRelse⟩ := hRM
  cases moved with
  | true =>
    obtain ⟨hp, hsz, hmt⟩ := hRif ⟨by rw [markBackfill_id]; exact hMid, rfl⟩
    rw [if_pos hp]
    have hnodrift : ¬ (M'.fingerprint.file_size ≠ rm.size ∨
        ¬ mtClose M'.fingerprint.modified_time rm.mtime = true) := by
      rw [hsz, hmt]
      simp [mtClose_self]
    rw [if_neg hnodrift]
    refine ⟨hc, hs, ?_⟩
    exact forall2_map_right_mem _ hf
      (fun x y _ hxy => C4R_missing mid rm true M'.track_id x y hxy)
  | false =>
    obtain ⟨hp, hfp⟩ := hRelse (by rintro ⟨_, hcontra⟩; exact Bool.noConfusion hcontra)
    have hp2 : M'.original_path = M.original_path := by
      rw [hp, markBackfill_path]
    rw [if_neg (show ¬ M'.original_path = rm.rel_path by rw [hp2]; exact hMpath)]
    rw [if_pos (show ¬ dE M'.original_path = true by rw [hp2, hMdisk]; simp)]
    refine ⟨hc, ?_, ?_⟩
    · show ({ st.summary with relinked := st.summary.relinked + 1 } : ScanSummary) =
        { relinked := cond true 1 0 }
      rw [hs]
      rfl
    · refine forall2_map_right_mem _
        (forall2_map_right_mem _ hf
          (fun x y _ hxy => C4R_missing mid rm false M'.track_id x y hxy)) ?_
      exact fun x y _ hxy => C4R_relink mid rm M'.track_id hM'id x y hxy

theorem processRecord_C4_stable (cat : Catalog) (dE : String → Bool) (initVK : Bool)
    (voc : Vocab) (mnp : List ((String × String) × List Nat)) (now : String)
    (rm : Disc) (mid : Nat) (M : Track) (r : Disc) (st : SyncState) (moved : Bool)
    (hnd : (cat.tracks.map (fun t => t.track_id)).Nodup)
    (hcanon : alookup (canonMap cat.tracks) rm.sha1 = some mid)
    (hM : getTrack cat.tracks mid = some M)
    (hr : StableRec cat r) (hrsha : r.sha1 ≠ rm.sha1)
    (h : C4Inv cat mid rm moved st) :
    C4Inv cat mid rm moved (processRecord dE initVK voc mnp now st r) := by
  obtain ⟨hc, hs, hf⟩ := h
  obtain ⟨tid, T, hlook, hT, hTpath, hTsize, hTmt⟩ := hr
  have htidne : tid ≠ mid := by
    intro hcontra
    subst hcontra
    have hTM : T = M := Option.some_inj.mp (hT ▸ hM)
    obtain ⟨tm, htmm, htmi, htms, _⟩ := canonMap_lookup_mem hcanon
    have hMeq : M = tm := mem_id_unique hnd (getTrack_mem hM).1 htmm
      (by rw [(getTrack_mem hM).2, htmi])
    obtain ⟨tr, htrm, htri, htrs, _⟩ := canonMap_lookup_mem hlook
    have hTeq : T = tr := mem_id_unique hnd (getTrack_mem hT).1 htrm
      (by rw [(getTrack_mem hT).2, htri])
    apply hrsha
    rw [← htrs, ← hTeq, hTM, hMeq, htms]
  have hbase : getTrack (cat.tracks.map (markBackfill cat.vocab cat.aliases)) tid =
      some (markBackfill cat.vocab cat.aliases T) := by
    rw [getTrack_map _ (markBackfill_id cat.vocab cat.aliases), hT]
    rfl
  obtain ⟨T', hT', hRT⟩ := forall2_getTrack (fun x y hxy => hxy.1) hf hbase
  have hsc : (alookup st.canonical_by_sha1 r.sha1).bind (getTrack st.tracks) = some T' := by
    rw [hc, hlook]
    exact hT'
  simp only [processRecord, hsc]
  obtain ⟨hRid, hRvk, hRsha, hRif, hRelse⟩ := hRT
  obtain ⟨hp, hfp⟩ := hRelse (by
    rintro ⟨hcontra, _⟩
    rw [markBackfill_id, (getTrack_mem hT).2] at hcontra
    exact htidne hcontra)
  have hp2 : T'.original_path = r.rel_path := by
    rw [hp, markBackfill_path]
    exact hTpath
  rw [if_pos hp2]
  have hfp2 : T'.fingerprint = T.fingerprint := by
    rw [hfp]
    exact markBackfill_fp cat.vocab cat.aliases T
  have hnodrift : ¬ (T'.fingerprint.file_size ≠ r.size ∨
      ¬ mtClose T'.fingerprint.modified_time r.mtime = true) := by
    rw [hfp2, hTsize]
    simp [hTmt]
  rw [if_neg hnodrift]
  refine ⟨hc, hs, ?_⟩
  exact forall2_map_right_mem _ hf
    (fun x y _ hxy => C4R_missing mid rm moved T'.track_id x y hxy)

theorem c4_fold (cat : Catalog) (dE : String → Bool) (initVK : Bool) (voc : Vocab)
    (mnp : List ((String × String) × List Nat)) (now : String)
    (rm : Disc) (mid : Nat) (M : Track)
    (hnd : (cat.tracks.map (fun t => t.track_id)).Nodup)
    (hcanon : alookup (canonMap cat.tracks) rm.sha1 = some mid)
    (hM : getTrack cat.tracks mid = some M)
    (hMpath : M.original_path ≠ rm.rel_path)
    (hMdisk : dE M.original_path = false) :
    ∀ (D : List Disc) (st : SyncState) (moved : Bool),
      C4Inv cat mid rm moved st →
      (∀ r ∈ D, r = rm ∨ (StableRec cat r ∧ r.sha1 ≠ rm.sha1)) →
      C4Inv cat mid rm (moved || D.any (fun r => decide (r = rm)))
        (D.foldl (processRecord dE initVK voc mnp now) st) := by
  intro D
  induction D with
  | nil =>
    intro st moved h _
    simp only [List.any_nil, Bool.or_false, List.foldl_nil]
    exact h
  | cons r rest ih =>
    intro st moved h hall
    simp only [List.foldl_cons, List.any_cons]
    rcases hall r (List.mem_cons_self _ _) with rfl | ⟨hstable, hneq⟩
    · have h1 := processRecord_C4_rm cat dE initVK voc mnp now r mid M st moved
        hnd hcanon hM hMpath hMdisk h
      have h2 := ih _ true h1 (fun a ha => hall a (List.mem_cons_of_mem _ ha))
      have hflag : (moved || (decide (r = r) || rest.any (fun a => decide (a = r)))) =
          true := by simp
      rw [hflag]
      simpa using h2
    · have hrne : r ≠ rm := fun hcontra => hneq (by rw [hcontra])
      have h1 := processRecord_C4_stable cat dE initVK voc mnp now rm mid M r st moved
        hnd hcanon hM hstable hneq h
      have h2 := ih _ moved h1 (fun a ha => hall a (List.mem_cons_of_mem _ ha))
      have hflag : (moved || (decide (r = rm) || rest.any (fun a => decide (a = rm)))) =
          (moved || rest.any (fun a => decide (a = rm))) := by
        rw [decide_eq_false hrne]
        simp
      rw [hflag]
      exact h2

/-- C4: content-preserving move. When the scan discovers a record `rm` whose
hash has a canonical asset `M` stored at a different path that no longer
exists on disk, and every other discovered record is a stable hit (its own
canonical asset still at its own path, matching size and mtime, different
hash), `scan_and_sync` relinks `M` in place — same track id, same virtual
key, new path, same hash — and reports exactly one `relinked`, zero `new`,
zero `updated`, zero `duplicates`, with the asset count unchanged. -/
theorem C4_content_preserving_move (dE : String → Bool) (D : List Disc) (initVK : Bool)
    (cat : Catalog) (gen : Nat) (now : String) (rm : Disc) (mid : Nat) (M : Track)
    (hw : WellClustered cat)
    (hnd : (cat.tracks.map (fun t => t.track_id)).Nodup)
    (hcanon : alookup (canonMap cat.tracks) rm.sha1 = some mid)
    (hM : getTrack cat.tracks mid = some M)
    (hMpath : M.original_path ≠ rm.rel_path)
    (hMdisk : dE M.original_path = false)
    (hmem : rm ∈ D)
    (hothers : ∀ r ∈ D, r = rm ∨ (StableRec cat r ∧ r.sha1 ≠ rm.sha1)) :
    (scan_and_sync dE D initVK cat gen now).2.1.relinked = 1 ∧
    (scan_and_sync dE D initVK cat gen now).2.1.new = 0 ∧
    (scan_and_sync dE D initVK cat gen now).2.1.updated = 0 ∧
    (scan_and_sync dE D initVK cat gen now).2.1.duplicates = 0 ∧
    (scan_and_sync dE D initVK cat gen now).1.tracks.length = cat.tracks.length ∧
    ∃ M', getTrack (scan_and_sync dE D initVK cat gen now).1.tracks mid = some M' ∧
      M'.track_id = M.track_id ∧ M'.virtual_key = M.virtual_key ∧
      M'.original_path = rm.rel_path ∧ M'.fingerprint.sha1 = rm.sha1 := by
  obtain ⟨he1, he2, he3, he4, he5⟩ := ensure_of_wellClustered cat gen now hw
  have htr2 := tracks2_eq_markBackfill cat.vocab cat.aliases cat.tracks
  have hMmem : M ∈ cat.tracks := (getTrack_mem hM).1
  have hMid : M.track_id = mid := (getTrack_mem hM).2
  obtain ⟨tm, htmm, htmi, htms, _⟩ := canonMap_lookup_mem hcanon
  have hMeq : M = tm := mem_id_unique hnd hMmem htmm (by rw [hMid, htmi])
  have hMsha : M.fingerprint.sha1 = rm.sha1 := by rw [hMeq]; exact htms
  have hinv0 : C4Inv cat mid rm false
      { tracks := cat.tracks.map (markBackfill cat.vocab cat.aliases),
        clusters := cat.clusters, existing_keys := keySet cat.tracks,
        canonical_by_sha1 := canonMap cat.tracks, track_by_relpath := relMap cat.tracks,
        used_name_relinks := [], summary := {}, gen := gen } := by
    refine ⟨rfl, rfl, ?_⟩
    refine List.forall₂_same.mpr ?_
    intro x _
    exact ⟨rfl, rfl, rfl, fun hx2 => absurd hx2.2 (by simp), fun _ => ⟨rfl, rfl⟩⟩
  have hany : D.any (fun a => decide (a = rm)) = true :=
    List.any_eq_true.mpr ⟨rm, hmem, by simp⟩
  have hfold := c4_fold cat dE initVK cat.vocab
    (buildMnp dE (cat.tracks.map (backfillTrack cat.vocab cat.aliases))) now rm mid M
    hnd hcanon hM hMpath hMdisk D
    { tracks := cat.tracks.map (markBackfill cat.vocab cat.aliases),
      clusters := cat.clusters, existing_keys := keySet cat.tracks,
      canonical_by_sha1 := canonMap cat.tracks, track_by_relpath := relMap cat.tracks,
      used_name_relinks := [], summary := {}, gen := gen } false hinv0 hothers
  rw [Bool.false_or, hany] at hfold
  obtain ⟨hc1, hs1, hf1⟩ := hfold
  have hbase : getTrack (cat.tracks.map (markBackfill cat.vocab cat.aliases)) mid =
      some (markBackfill cat.vocab cat.aliases M) := by
    rw [getTrack_map _ (markBackfill_id cat.vocab cat.aliases), hM]
    rfl
  obtain ⟨M'', hM'', hRM⟩ := forall2_getTrack (fun x y hxy => hxy.1) hf1 hbase
  obtain ⟨hRid, hRvk, hRsha, hRif, _⟩ := hRM
  obtain ⟨hp, _, _⟩ := hRif ⟨by rw [markBackfill_id]; exact hMid, rfl⟩
  simp only [scan_and_sync, he1, he2, he3, he4, he5, htr2]
  refine ⟨?_, ?_, ?_, ?_, ?_, ?_⟩
  · rw [hs1]
    rfl
  · rw [hs1]
  · rw [hs1]
  · rw [hs1]
  · rw [List.length_map, ← List.Forall₂.length_eq hf1, List.length_map]
  · refine ⟨postTrack cat.vocab cat.aliases M'', ?_, ?_, ?_, ?_, ?_⟩
    · rw [getTrack_map _ (postTrack_id cat.vocab cat.aliases), hM'']
      rfl
    · rw [postTrack_id, hRid, markBackfill_id]
    · rw [postTrack_vk, hRvk, markBackfill_vk]
    · rw [postTrack_path]
      exact hp
    · rw [postTrack_sha, hRsha, markBackfill_sha]
      exact hMsha

/-- Asset whose file moved from `old.mp3` to `new.mp3` without content change. -/
def c4Track : Track :=
  { track_id := 0, cluster_id := some 1, original_path := "old.mp3", file_format := "mp3",
    raw_file_name := "old.mp3",
    fingerprint := { sha1 := "A", file_size := 1, modified_time := 0 },
    virtual_key := "k" }

def c4Cat : Catalog :=
  { clusters := [{ cluster_id := 1, name := "k" }], tracks := [c4Track] }

def c4rm : Disc := { rel_path := "new.mp3", sha1 := "A", size := 1, mtime := 0, fmt := "mp3" }

def c4DE : String → Bool := fun p => p = "new.mp3"

theorem C4_content_preserving_move_witness :
    (scan_and_sync c4DE [c4rm] false c4Cat 50 "t").2.1.relinked = 1 ∧
    (scan_and_sync c4DE [c4rm] false c4Cat 50 "t").2.1.new = 0 ∧
    (scan_and_sync c4DE [c4rm] false c4Cat 50 "t").2.1.updated = 0 ∧
    (scan_and_sync c4DE [c4rm] false c4Cat 50 "t").2.1.duplicates = 0 ∧
    (scan_and_sync c4DE [c4rm] false c4Cat 50 "t").1.tracks.length = c4Cat.tracks.length ∧
    ∃ M', getTrack (scan_and_sync c4DE [c4rm] false c4Cat 50 "t").1.tracks 0 = some M' ∧
      M'.track_id = c4Track.track_id ∧ M'.virtual_key = c4Track.virtual_key ∧
      M'.original_path = c4rm.rel_path ∧ M'.fingerprint.sha1 = c4rm.sha1 := by
  refine C4_content_preserving_move c4DE [c4rm] false c4Cat 50 "t" c4rm 0 c4Track
    ?_ (by decide) (by decide) (by decide) (by decide) (by decide)
    (List.mem_singleton.mpr rfl) ?_
  · intro t ht
    have hT : t = c4Track := by simpa [c4Cat] using ht
    subst hT
    exact ⟨1, rfl, { cluster_id := 1, name := "k" }, by simp [c4Cat], rfl⟩
  · intro r hr
    left
    exact List.mem_singleton.mp hr

/-! ## Claim C9: pruning preserves load-time semantics -/

/-- `catalog.DEFAULT_PRIMARY_ROLES`. -/
def DEFAULT_PRIMARY_ROLES : List String :=
  ["menu", "exploration", "town", "combat", "boss", "cutscene", "ending", "ambient"]

/-- `catalog.default_vocab`. -/
def default_vocab : Vocab :=
  { primary_roles := DEFAULT_PRIMARY_ROLES,
    tag_vocab :=
      [("moods", ["calm", "cozy", "playful", "lighthearted", "hopeful", "romantic",
          "mysterious", "suspenseful", "tense", "eerie", "ominous", "melancholic",
          "heroic", "triumphant", "epic"]),
        ("styles", ["cinematic", "orchestral", "ambient", "minimalist", "electronic",
          "synthwave", "chiptune", "lofi", "rock", "jazz", "folk_acoustic", "world",
          "industrial", "horror"]),
        ("usable_in_contexts", ["menu", "loading", "exploration", "hub", "town",
          "puzzle", "stealth", "combat", "boss", "cutscene", "game_over", "ending",
          "credits"]),
        ("instruments", ["orchestral", "piano", "strings", "guitar", "bass",
          "percussion", "synth", "choir", "ethnic"]),
        ("for_game_settings", ["fantasy", "sci-fi", "modern", "historical",
          "post-apocalyptic", "cyberpunk", "steampunk"])],
    scale_defs :=
      [("energy", { min := 0, max := 5, default := 0 }),
        ("details", { min := 0, max := 5, default := 0 }),
        ("tension", { min := 0, max := 5, default := 0 }),
        ("diversity", { min := 0, max := 5, default := 0 }),
        ("users_liking", { min := 0, max := 5, default := 0 })],
    scale_names := ["energy", "details", "tension", "diversity", "users_liking"] }

/-- `catalog._ensure_vocab_scales`. -/
def _ensure_vocab_scales (vocab : Vocab) : Vocab :=
  let sd := if vocab.scale_defs = [] then
      vocab.scale_names.foldl (fun acc name =>
        if name ≠ "" ∧ (alookup acc name).isNone then
          acc ++ [(name, { min := 0, max := 5, default := 0 })]
        else acc) vocab.scale_defs
    else vocab.scale_defs
  let sn := if vocab.scale_names = [] then sd.map (fun q => q.1) else vocab.scale_names
  { vocab with
    scale_defs := sd, scale_names := sn }

/-- The per-value loop of `catalog._strip_vocab_unknown_options`: trim, drop
empties and unknown tokens, de-duplicate case-insensitively keeping the
original casing. -/
def stripVals (seen : List String) : List String → List String
  | [] => []
  | v :: rest =>
    let s := strTrim v
    if s = "" then stripVals seen rest
    else if strLower s ∈ unknownTokens then stripVals seen rest
    else if strLower s ∈ seen then stripVals seen rest
    else s :: stripVals (strLower s :: seen) rest

/-- `catalog._strip_vocab_unknown_options`. -/
def _strip_vocab_unknown_options (vocab : Vocab) : Vocab :=
  { vocab with
    tag_vocab := vkGroupNames.foldl (fun tv group =>
      match alookup tv group with
      | none => tv
      | some vals => aset tv group (stripVals [] vals)) vocab.tag_vocab }

/-- The serialized vocabulary: the fields the pruning step may omit are
optional, everything else is always present in a dump. -/
structure VocabJson where
  primary_roles : Option (List String)
  tag_vocab : List (String × List String)
  scale_defs : List (String × ScaleDef)
  scale_names : Option (List String)
deriving DecidableEq

/-- The serialized catalog (`Catalog.model_dump(mode="json")` shape). -/
structure CatalogJson where
  schema_version : Int
  created_at : String
  updated_at : String
  raw_music_directory : String
  vocab : VocabJson
  aliases : Option (List (String × String))
  clusters : List Cluster
  tracks : List Track
deriving DecidableEq

/-- `Catalog.model_dump(mode="json")`: every field is emitted. -/
def dumpCatalog (c : Catalog) : CatalogJson :=
  { schema_version := c.schema_version, created_at := c.created_at,
    updated_at := c.updated_at, raw_music_directory := c.raw_music_directory,
    vocab :=
      { primary_roles := some c.vocab.primary_roles, tag_vocab := c.vocab.tag_vocab,
        scale_defs := c.vocab.scale_defs, scale_names := some c.vocab.scale_names },
    aliases := some c.aliases, clusters := c.clusters, tracks := c.tracks }

/-- `catalog._prune_redundant_catalog_fields`: drop the empty alias map, a
default/empty primary-role list, and an empty or redundant scale-name list. -/
def _prune_redundant_catalog_fields (p : CatalogJson) : CatalogJson :=
  { p with
    aliases := if p.aliases = some [] then none else p.aliases,
    vocab := { p.vocab with
      primary_roles :=
        if p.vocab.primary_roles = some DEFAULT_PRIMARY_ROLES ∨
            p.vocab.primary_roles = some ([] : List (String)) then none
        else p.vocab.primary_roles,
      scale_names :=
        match p.vocab.scale_names with
        | none => none
        | some sn =>
          if sn = [] then none
          else if sn = p.vocab.scale_defs.map (fun q => q.1) then none
          else some sn } }

/-- The vocabulary part of the load path (`load_or_create_catalog`):
pydantic defaults for missing fields, the empty-vocab substitution, the
primary-role backfill, then `_ensure_vocab_scales` and
`_strip_vocab_unknown_options`. -/
def loadVocab (pv : VocabJson) : Vocab :=
  let vocab0 : Vocab :=
    { primary_roles := pv.primary_roles.getD [], tag_vocab := pv.tag_vocab,
      scale_defs := pv.scale_defs, scale_names := pv.scale_names.getD [] }
  let vocab1 :=
    if vocab0.tag_vocab = [] ∧ vocab0.scale_defs = [] ∧ vocab0.scale_names = []
    then default_vocab else vocab0
  let vocab2 :=
    if vocab1.primary_roles = [] then
      { vocab1 with
        primary_roles := DEFAULT_PRIMARY_ROLES }
    else vocab1
  _strip_vocab_unknown_options (_ensure_vocab_scales vocab2)

/-- The existing-file branch of `load_or_create_catalog`: validate the
payload with pydantic defaults, fix up the vocabulary, take the selected raw
directory as source of truth, backfill per-track hints/tags/scales, and
ensure clusters. -/
def loadCatalog (p : CatalogJson) (raw : String) (gen : Nat) (now : String) :
    Catalog × Nat :=
  let voc := loadVocab p.vocab
  let tracks1 := p.tracks.map (fun t =>
    ensure_track_scales (ensure_track_tags (_ensure_track_path_hints t) voc.tag_vocab)
      voc.scale_defs)
  ensure_catalog_clusters
    { schema_version := p.schema_version, created_at := p.created_at,
      updated_at := p.updated_at, raw_music_directory := raw, vocab := voc,
      aliases := p.aliases.getD [], clusters := p.clusters, tracks := tracks1 } gen now

theorem loadVocab_primary (pr : List String) (tv : List (String × List String))
    (sd : List (String × ScaleDef)) (snOpt : Option (List String))
    (h : pr = DEFAULT_PRIMARY_ROLES ∨ pr = []) :
    loadVocab
        { primary_roles := none, tag_vocab := tv, scale_defs := sd,
          scale_names := snOpt } =
      loadVocab
        { primary_roles := some pr, tag_vocab := tv, scale_defs := sd,
          scale_names := snOpt } := by
  rcases h with rfl | rfl
  · unfold loadVocab
    simp only [Option.getD_none, Option.getD_some]
    by_cases hempty : tv = [] ∧ sd = [] ∧ snOpt.getD [] = []
    · rw [if_pos hempty, if_pos hempty]
    · rw [if_neg hempty, if_neg hempty]
      rw [if_pos (show ([] : List String) = [] from rfl)]
      rw [if_neg (show ¬ DEFAULT_PRIMARY_ROLES = ([] : List String) by decide)]
  · rfl

theorem ensure_scales_names_eq (p : List String) (tv : List (String × List String))
    (sd : List (String × ScaleDef)) (hsd : ¬ sd = []) :
    _ensure_vocab_scales
        { primary_roles := p, tag_vocab := tv, scale_defs := sd, scale_names := [] } =
      _ensure_vocab_scales
        { primary_roles := p, tag_vocab := tv, scale_defs := sd,
          scale_names := sd.map (fun q => q.1) } := by
  unfold _ensure_vocab_scales
  dsimp only
  rw [if_neg hsd, if_neg hsd]
  rw [if_pos (show ([] : List String) = [] from rfl)]
  rw [if_neg (fun hc => hsd (List.map_eq_nil_iff.mp hc))]

theorem loadVocab_scales (tv : List (String × List String))
    (sd : List (String × ScaleDef)) (sn : List String) (prOpt : Option (List String))
    (h : sn = [] ∨ sn = sd.map (fun q => q.1)) :
    loadVocab
        { primary_roles := prOpt, tag_vocab := tv, scale_defs := sd,
          scale_names := none } =
      loadVocab
        { primary_roles := prOpt, tag_vocab := tv, scale_defs := sd,
          scale_names := some sn } := by
  rcases h with rfl | rfl
  · rfl
  · by_cases hsd : sd = []
    · subst hsd
      rfl
    · unfold loadVocab
      simp only [Option.getD_none, Option.getD_some]
      rw [if_neg (show ¬ (tv = [] ∧ sd = [] ∧ True) from fun hc => hsd hc.2.1)]
      rw [if_neg (show ¬ (tv = [] ∧ sd = [] ∧ List.map (fun q => q.1) sd = []) from
        fun hc => hsd hc.2.1)]
      dsimp only
      by_cases hpr : prOpt.getD [] = []
      · rw [if_pos hpr, if_pos hpr]
        rw [ensure_scales_names_eq DEFAULT_PRIMARY_ROLES tv sd hsd]
      · rw [if_neg hpr, if_neg hpr]
        rw [ensure_scales_names_eq (prOpt.getD []) tv sd hsd]

theorem loadCatalog_congr (p q : CatalogJson) (raw : String) (gen : Nat) (now : String)
    (hv : loadVocab p.vocab = loadVocab q.vocab)
    (ha : p.aliases.getD [] = q.aliases.getD [])
    (hs : p.schema_version = q.schema_version)
    (hc : p.created_at = q.created_at) (hu : p.updated_at = q.updated_at)
    (hcl : p.clusters = q.clusters) (ht : p.tracks = q.tracks) :
    loadCatalog p raw gen now = loadCatalog q raw gen now := by
  simp only [loadCatalog]
  rw [hv, ha, hs, hc, hu, hcl, ht]

/-- C9: pruning the serialized catalog never changes what loading produces.
For every catalog, loading the pruned dump through the load path yields
exactly the same in-memory catalog (and fresh-id supply) as loading the
unpruned dump. -/
theorem C9_pruning_preserves_load (c : Catalog) (raw : String) (gen : Nat) (now : String) :
    loadCatalog (_prune_redundant_catalog_fields (dumpCatalog c)) raw gen now =
      loadCatalog (dumpCatalog c) raw gen now := by
  refine loadCatalog_congr _ _ raw gen now ?_ ?_ rfl rfl rfl rfl rfl
  · show loadVocab
        { primary_roles :=
            if some c.vocab.primary_roles = some DEFAULT_PRIMARY_ROLES ∨
                some c.vocab.primary_roles = some ([] : List String) then none
            else some c.vocab.primary_roles,
          tag_vocab := c.vocab.tag_vocab, scale_defs := c.vocab.scale_defs,
          scale_names :=
            if c.vocab.scale_names = [] then none
            else if c.vocab.scale_names = c.vocab.scale_defs.map (fun q => q.1) then none
            else some c.vocab.scale_names } =
      loadVocab
        { primary_roles := some c.vocab.primary_roles, tag_vocab := c.vocab.tag_vocab,
          scale_defs := c.vocab.scale_defs, scale_names := some c.vocab.scale_names }
    by_cases hpr : c.vocab.primary_roles = DEFAULT_PRIMARY_ROLES ∨
        c.vocab.primary_roles = []
    · rw [if_pos (by simpa using hpr)]
      by_cases hsn : c.vocab.scale_names = []
      · rw [if_pos hsn]
        exact (loadVocab_scales c.vocab.tag_vocab c.vocab.scale_defs c.vocab.scale_names
          none (Or.inl hsn)).trans
          (loadVocab_primary c.vocab.primary_roles c.vocab.tag_vocab c.vocab.scale_defs
            (some c.vocab.scale_names) hpr)
      · rw [if_neg hsn]
        by_cases hsk : c.vocab.scale_names = c.vocab.scale_defs.map (fun q => q.1)
        · rw [if_pos hsk]
          exact (loadVocab_scales c.vocab.tag_vocab c.vocab.scale_defs
            c.vocab.scale_names none (Or.inr hsk)).trans
            (loadVocab_primary c.vocab.primary_roles c.vocab.tag_vocab
              c.vocab.scale_defs (some c.vocab.scale_names) hpr)
        · rw [if_neg hsk]
          exact loadVocab_primary c.vocab.primary_roles c.vocab.tag_vocab
            c.vocab.scale_defs (some c.vocab.scale_names) hpr
    · rw [if_neg (by simpa using hpr)]
      by_cases hsn : c.vocab.scale_names = []
      · rw [if_pos hsn]
        exact loadVocab_scales c.vocab.tag_vocab c.vocab.scale_defs c.vocab.scale_names
          (some c.vocab.primary_roles) (Or.inl hsn)
      · rw [if_neg hsn]
        by_cases hsk : c.vocab.scale_names = c.vocab.scale_defs.map (fun q => q.1)
        · rw [if_pos hsk]
          exact loadVocab_scales c.vocab.tag_vocab c.vocab.scale_defs c.vocab.scale_names
            (some c.vocab.primary_roles) (Or.inr hsk)
        · rw [if_neg hsk]
  · show (if some c.aliases = some ([] : List (String × String)) then none
        else some c.aliases).getD [] = c.aliases
    by_cases h : c.aliases = []
    · rw [if_pos (by rw [h]), h]
      rfl
    · rw [if_neg (fun hc => h (Option.some_inj.mp hc))]
      rfl

end Catcity



